import Mathlib

/-!
Shallow embedding of `src/Quadtree/quadtree/quad_region.py`: a region quadtree
over integer coordinates with set semantics for points.  Pure functions of the
source become Lean functions; in-place mutation becomes explicit node
replacement (which is observationally equivalent for this strict-tree
structure); the recursions of `QuadNode.add` and `QuadNode.remove`, whose
termination in Python rests on regions shrinking, are given an explicit fuel
parameter, with `PyErr.outOfFuel` marking a run that would not have returned;
the `AttributeError` raised by calling `remove` on a `None` child is modelled
by `PyErr.noneAttr`.  Python floor division `// 2` is Lean `Int` division `/ 2`
(both round toward negative infinity for the positive divisor 2), and the
float computations `math.floor(math.log2 n)` / `math.ceil(math.log2 n)` are
modelled by the exact integer logarithms `Nat.log 2` / `Nat.clog 2`.
-/

namespace QuadRegion

/-- The rectangle value type consumed by the quadtree, from `adk.region`
(bounds closed on min, open on max).  Constructor argument order follows
`Region(x_min, y_min, x_max, y_max)`. -/
structure Region where
  x_min : Int
  y_min : Int
  x_max : Int
  y_max : Int
deriving DecidableEq, Repr

/-- Modelled from the spec: `adk.region.Region.copy` is not under `src/`; the
spec describes `Region` as a pure value type with four integer bounds, so
`copy` yields an independent `Region` holding the same four bounds. -/
def Region.copy (r : Region) : Region :=
  { x_min := r.x_min, y_min := r.y_min, x_max := r.x_max, y_max := r.y_max }

/-- The four quadrant tags `NE = 0, NW = 1, SW = 2, SE = 3` of the source. -/
inductive Quad where
  | NE
  | NW
  | SW
  | SE
deriving DecidableEq, Repr

/-- `containsPoint(region, point)`: containment closed on min, open on max. -/
def containsPoint (r : Region) (p : Int × Int) : Bool :=
  if p.1 < r.x_min then false
  else if p.1 ≥ r.x_max then false
  else if p.2 < r.y_min then false
  else if p.2 ≥ r.y_max then false
  else true

/-- x coordinate of a node origin:
`region.x_min + (region.x_max - region.x_min)//2`. -/
def originX (r : Region) : Int := r.x_min + (r.x_max - r.x_min) / 2

/-- y coordinate of a node origin:
`region.y_min + (region.y_max - region.y_min)//2`. -/
def originY (r : Region) : Int := r.y_min + (r.y_max - r.y_min) / 2

/-- `QuadNode.subregion(q)`, expressed on the region since the stored origin
is a pure function of the (never reassigned) node region. -/
def subregionR (r : Region) : Quad → Region
  | .NE => { x_min := originX r, y_min := originY r, x_max := r.x_max, y_max := r.y_max }
  | .NW => { x_min := r.x_min, y_min := originY r, x_max := originX r, y_max := r.y_max }
  | .SW => { x_min := r.x_min, y_min := r.y_min, x_max := originX r, y_max := originY r }
  | .SE => { x_min := originX r, y_min := r.y_min, x_max := r.x_max, y_max := originY r }

/-- `QuadNode.quadrant(pt)`: `pt[X] >= origin[X]` selects the east side,
`pt[Y] >= origin[Y]` the north side. -/
def quadrantR (r : Region) (p : Int × Int) : Quad :=
  if originX r ≤ p.1 then
    if originY r ≤ p.2 then .NE else .SE
  else
    if originY r ≤ p.2 then .NW else .SW

/-- `QuadNode`: a region, the `full` flag, and the four child slots
(`children[NE], children[NW], children[SW], children[SE]`). -/
inductive QuadNode where
  | mk (region : Region) (full : Bool) (ne nw sw se : Option QuadNode)

def QuadNode.region : QuadNode → Region
  | .mk r _ _ _ _ _ => r

def QuadNode.full : QuadNode → Bool
  | .mk _ f _ _ _ _ => f

def QuadNode.child : QuadNode → Quad → Option QuadNode
  | .mk _ _ ne _ _ _, .NE => ne
  | .mk _ _ _ nw _ _, .NW => nw
  | .mk _ _ _ _ sw _, .SW => sw
  | .mk _ _ _ _ _ se, .SE => se

def QuadNode.setChild : QuadNode → Quad → Option QuadNode → QuadNode
  | .mk r f _ nw sw se, .NE, c => .mk r f c nw sw se
  | .mk r f ne _ sw se, .NW, c => .mk r f ne c sw se
  | .mk r f ne nw _ se, .SW, c => .mk r f ne nw c se
  | .mk r f ne nw sw _, .SE, c => .mk r f ne nw sw c

def QuadNode.setFull : QuadNode → Bool → QuadNode
  | .mk r _ ne nw sw se, f => .mk r f ne nw sw se

def QuadNode.clearChildren : QuadNode → QuadNode
  | .mk r f _ _ _ _ => .mk r f none none none none

/-- `QuadNode.__init__(region, isFull)`: empty child slots. -/
def QuadNode.make (r : Region) (isFull : Bool) : QuadNode :=
  .mk r isFull none none none none

/-- `QuadNode.isPoint()`: the region is a single point. -/
def QuadNode.isPoint (n : QuadNode) : Bool :=
  (n.region.x_min + 1 == n.region.x_max) && (n.region.y_min + 1 == n.region.y_max)

def QuadNode.subregion (n : QuadNode) (q : Quad) : Region :=
  subregionR n.region q

def QuadNode.quadrant (n : QuadNode) (p : Int × Int) : Quad :=
  quadrantR n.region p

/-- One conjunct of `childrenFull`: the slot holds a full child. -/
def fullChild : Option QuadNode → Bool
  | none => false
  | some c => c.full

/-- `QuadNode.childrenFull()`. -/
def QuadNode.childrenFull (n : QuadNode) : Bool :=
  fullChild (n.child .NE) && fullChild (n.child .NW) &&
    fullChild (n.child .SW) && fullChild (n.child .SE)

/-- `QuadNode.childrenNull()`. -/
def QuadNode.childrenNull (n : QuadNode) : Bool :=
  (n.child .NE).isNone && (n.child .NW).isNone &&
    (n.child .SW).isNone && (n.child .SE).isNone

/-- `QuadNode.subdivide()`: overwrite the four child slots with fresh nodes
over the four subregions, each inheriting the parent's `full` status. -/
def QuadNode.subdivide : QuadNode → QuadNode
  | .mk r f _ _ _ _ =>
    .mk r f (some (QuadNode.make (subregionR r .NE) f))
      (some (QuadNode.make (subregionR r .NW) f))
      (some (QuadNode.make (subregionR r .SW) f))
      (some (QuadNode.make (subregionR r .SE) f))

/-- Errors a Python run can signal: `outOfFuel` marks exhausted recursion
fuel (the embedding artifact for nontermination), `noneAttr` the
`AttributeError` from invoking a method on `None`. -/
inductive PyErr where
  | outOfFuel
  | noneAttr
deriving DecidableEq, Repr

/-- The tail of `QuadNode.add`: after a point landed in a child slot,
collapse to a full childless node when all four children are full. -/
def addFinish (n : QuadNode) : QuadNode × Bool :=
  if n.childrenFull then ((n.setFull true).clearChildren, true) else (n, true)

/-- `QuadNode.add(pt)` with explicit recursion fuel.  In the empty-slot
branch the recursive result is discarded, exactly as in the source. -/
def nodeAdd : Nat → QuadNode → Int × Int → Except PyErr (QuadNode × Bool)
  | 0, _, _ => .error .outOfFuel
  | fuel + 1, n, pt =>
    let q := n.quadrant pt
    match n.child q with
    | none =>
      let c := QuadNode.make (n.subregion q) false
      if c.isPoint then
        .ok (addFinish (n.setChild q (some (c.setFull true))))
      else
        match nodeAdd fuel c pt with
        | .error e => .error e
        | .ok (c1, _) => .ok (addFinish (n.setChild q (some c1)))
    | some c =>
      match nodeAdd fuel c pt with
      | .error e => .error e
      | .ok (c1, b) =>
        if b then .ok (addFinish (n.setChild q (some c1)))
        else .ok (n.setChild q (some c1), false)

/-- `QuadNode.remove(pt)` with explicit recursion fuel.  A full node is
subdivided (children inherit `full`) and its own flag cleared before
descending; descending into an absent child is the `AttributeError`. -/
def nodeRemove : Nat → QuadNode → Int × Int → Except PyErr (Option QuadNode × Bool)
  | 0, _, _ => .error .outOfFuel
  | fuel + 1, n, pt =>
    if n.isPoint then .ok (none, true)
    else
      let q := n.quadrant pt
      let n1 := if n.full then n.subdivide.setFull false else n
      match n1.child q with
      | none => .error .noneAttr
      | some c =>
        match nodeRemove fuel c pt with
        | .error e => .error e
        | .ok (c1, updated) =>
          let n2 := n1.setChild q c1
          if n2.childrenNull then .ok (none, updated)
          else .ok (some n2, updated)

/-- The membership walk of `QuadTree.__contains__`: stop with `True` at a
full node, descend the point's quadrant otherwise, `False` on a missing
child. -/
def memNode (p : Int × Int) : QuadNode → Bool
  | .mk r f ne nw sw se =>
    if f then true
    else
      match quadrantR r p with
      | .NE => match ne with | none => false | some c => memNode p c
      | .NW => match nw with | none => false | some c => memNode p c
      | .SW => match sw with | none => false | some c => memNode p c
      | .SE => match se with | none => false | some c => memNode p c

/-- The points yielded for one region by `QuadTree.__iter__` on a full node:
`for x in range(x_min, x_max): for y in range(y_min, y_max): yield (x, y)`. -/
def regionPoints (r : Region) : List (Int × Int) :=
  (List.range (r.x_max - r.x_min).toNat).flatMap fun i =>
    (List.range (r.y_max - r.y_min).toNat).map fun j =>
      (r.x_min + Int.ofNat i, r.y_min + Int.ofNat j)

/-- The point sequence of `QuadTree.__iter__`: a pre-order walk
(`QuadNode.preorder`) in which a full node yields every point of its region,
a non-full point node yields its single point, and every present child is
still traversed afterwards. -/
def nodePoints : QuadNode → List (Int × Int)
  | .mk r f ne nw sw se =>
    (if f then regionPoints r
     else if (r.x_min + 1 == r.x_max) && (r.y_min + 1 == r.y_max) then
       [(r.x_min, r.y_min)]
     else [])
    ++ (match ne with | none => [] | some c => nodePoints c)
    ++ (match nw with | none => [] | some c => nodePoints c)
    ++ (match sw with | none => [] | some c => nodePoints c)
    ++ (match se with | none => [] | some c => nodePoints c)

/-- Floor of the base-2 logarithm by repeated halving.  The first argument
is structural-recursion fuel; `log2floor` below always passes enough. -/
def log2floorAux : Nat → Nat → Nat
  | 0, _ => 0
  | fuel + 1, n => if n ≤ 1 then 0 else log2floorAux fuel (n / 2) + 1

/-- `floor(log2 n)` (for `n ≥ 1`), the exact value of Python's
`math.floor(math.log2(n))`. -/
def log2floor (n : Nat) : Nat := log2floorAux n n

/-- `ceil(log2 n)` (for `n ≥ 1`), the exact value of Python's
`math.ceil(math.log2(n))`, via `ceil(log2 n) = floor(log2 (n-1)) + 1` for
`n ≥ 2`. -/
def log2ceil (n : Nat) : Nat := if n ≤ 1 then 0 else log2floor (n - 1) + 1

/-- `smaller2k(n)`: `2**floor(log2 n)` for positive `n`,
`-2**ceil(log2 (-n))` for negative `n`, `0` for `0`. -/
def smaller2k (n : Int) : Int :=
  if n = 0 then 0
  else if n < 0 then -((2 : Int) ^ log2ceil (-n).toNat)
  else (2 : Int) ^ log2floor n.toNat

/-- `larger2k(n)`: `2**ceil(log2 n)` for positive `n`,
`-2**floor(log2 (-n))` for negative `n`, `0` for `0`. -/
def larger2k (n : Int) : Int :=
  if n = 0 then 0
  else if n < 0 then -((2 : Int) ^ log2floor (-n).toNat)
  else (2 : Int) ^ log2ceil n.toNat

/-- `QuadTree`: optional root plus the canonical region. -/
structure QuadTree where
  root : Option QuadNode
  region : Region

/-- Fuel that covers the recursion depth of `add`/`remove` on any tree whose
nodes carve the canonical region: the region half-perimeter plus one. -/
def treeFuel (t : QuadTree) : Nat :=
  ((t.region.x_max - t.region.x_min) + (t.region.y_max - t.region.y_min)).toNat + 1

/-- `QuadTree.__init__(region)`.  The Python constructor first copies the
caller's region object and then mutates only the copy; the returned pair is
(the caller's region object after the call, the constructed tree). -/
def quadTreeInit (callerRegion : Region) : Region × QuadTree :=
  let selfRegion := callerRegion.copy
  let xmin2k := smaller2k selfRegion.x_min
  let ymin2k := smaller2k selfRegion.y_min
  let xmax2k := larger2k selfRegion.x_max
  let ymax2k := larger2k selfRegion.y_max
  let lo := min xmin2k ymin2k
  let hi := max xmax2k ymax2k
  (callerRegion,
    { root := none, region := { x_min := lo, y_min := lo, x_max := hi, y_max := hi } })

/-- Construct a `QuadTree` from a requested region. -/
def QuadTree.make (r : Region) : QuadTree :=
  (quadTreeInit r).2

/-- `QuadTree.add(pt)`. -/
def treeAdd (t : QuadTree) (pt : Int × Int) : Except PyErr (QuadTree × Bool) :=
  if containsPoint t.region pt = false then .ok (t, false)
  else
    let r := t.root.getD (QuadNode.make t.region false)
    match nodeAdd (treeFuel t) r pt with
    | .error e => .error e
    | .ok (r1, b) => .ok ({ t with root := some r1 }, b)

/-- `QuadTree.remove(pt)`. -/
def treeRemove (t : QuadTree) (pt : Int × Int) : Except PyErr (QuadTree × Bool) :=
  match t.root with
  | none => .ok (t, false)
  | some r =>
    if containsPoint t.region pt = false then .ok (t, false)
    else
      match nodeRemove (treeFuel t) r pt with
      | .error e => .error e
      | .ok (r1, updated) => .ok ({ t with root := r1 }, updated)

/-- `QuadTree.__contains__(pt)`. -/
def treeContains (t : QuadTree) (pt : Int × Int) : Bool :=
  if containsPoint t.region pt = false then false
  else
    match t.root with
    | none => false
    | some n => memNode pt n

/-- `QuadTree.__iter__()` collected into a list. -/
def treePoints (t : QuadTree) : List (Int × Int) :=
  match t.root with
  | none => []
  | some n => nodePoints n

/-- A public operation on the tree. -/
inductive Op where
  | add (pt : Int × Int)
  | remove (pt : Int × Int)

/-- Apply one operation, keeping only the tree. -/
def applyOp (t : QuadTree) : Op → Except PyErr QuadTree
  | .add pt =>
    match treeAdd t pt with
    | .error e => .error e
    | .ok (t1, _) => .ok t1
  | .remove pt =>
    match treeRemove t pt with
    | .error e => .error e
    | .ok (t1, _) => .ok t1

/-- Run a sequence of operations. -/
def runOps (t : QuadTree) : List Op → Except PyErr QuadTree
  | [] => .ok t
  | op :: ops =>
    match applyOp t op with
    | .error e => .error e
    | .ok t1 => runOps t1 ops

/-- Run a sequence of insertions. -/
def runAdds (t : QuadTree) : List (Int × Int) → Except PyErr QuadTree
  | [] => .ok t
  | p :: ps =>
    match treeAdd t p with
    | .error e => .error e
    | .ok (t1, _) => runAdds t1 ps

/-- Membership walk entered at an optional node (an empty slot holds no
point). -/
def memOpt (p : Int × Int) : Option QuadNode → Bool
  | none => false
  | some c => memNode p c

/-- Structural well-formedness: every present child sits over the subregion
of its quadrant.  The code establishes this at every child creation
(`QuadNode.add` and `QuadNode.subdivide` construct children over
`subregion(q)` only). -/
inductive WF : QuadNode → Prop where
  | intro (n : QuadNode)
      (hreg : ∀ q c, n.child q = some c → c.region = subregionR n.region q)
      (hch : ∀ q c, n.child q = some c → WF c) :
      WF n

/-- Well-formedness of a whole tree: an existing root is well-formed and
sits over the canonical region. -/
def WFT (t : QuadTree) : Prop :=
  match t.root with
  | none => True
  | some n => WF n ∧ n.region = t.region

/-- The state invariant of add-only histories that never insert an already
present point, relative to the set `A` of points added so far: children sit
over their subregions, a full node is childless and genuinely full (all its
region points are in `A`), no node keeps four full children uncollapsed,
and point nodes are full. -/
inductive Inv (A : Int × Int → Prop) : QuadNode → Prop where
  | intro (n : QuadNode)
      (hreg : ∀ q c, n.child q = some c → c.region = subregionR n.region q)
      (hfc : n.full = true → n.childrenNull = true)
      (hfa : n.full = true → ∀ px py, containsPoint n.region (px, py) = true → A (px, py))
      (hcf : n.childrenFull = false)
      (hpf : n.isPoint = true → n.full = true)
      (hch : ∀ q c, n.child q = some c → Inv A c) :
      Inv A n

/-- Both side lengths of the region equal `2 ^ k`. -/
def sidesPow (r : Region) (k : Nat) : Prop :=
  r.x_max - r.x_min = 2 ^ k ∧ r.y_max - r.y_min = 2 ^ k

end QuadRegion

namespace QuadRegion

/-! ## Basic lemmas about regions and point enumeration -/

theorem containsPoint_iff (r : Region) (px py : Int) :
    containsPoint r (px, py) = true ↔
      r.x_min ≤ px ∧ px < r.x_max ∧ r.y_min ≤ py ∧ py < r.y_max := by
  unfold containsPoint
  split_ifs <;> simp <;> omega

theorem mem_regionPoints (r : Region) (px py : Int) :
    (px, py) ∈ regionPoints r ↔ containsPoint r (px, py) = true := by
  unfold regionPoints
  rw [containsPoint_iff]
  constructor
  · intro h
    obtain ⟨i, hi, hmem⟩ := List.mem_flatMap.mp h
    obtain ⟨j, hj, heq⟩ := List.mem_map.mp hmem
    rw [List.mem_range] at hi hj
    injection heq with hx hy
    subst hx
    subst hy
    simp only [Int.ofNat_eq_coe]
    refine ⟨by omega, by omega, by omega, by omega⟩
  · rintro ⟨h1, h2, h3, h4⟩
    have hx : r.x_min + Int.ofNat (px - r.x_min).toNat = px := by
      simp only [Int.ofNat_eq_coe]; omega
    have hy : r.y_min + Int.ofNat (py - r.y_min).toNat = py := by
      simp only [Int.ofNat_eq_coe]; omega
    refine List.mem_flatMap.mpr ⟨(px - r.x_min).toNat, List.mem_range.mpr (by omega), ?_⟩
    refine List.mem_map.mpr ⟨(py - r.y_min).toNat, List.mem_range.mpr (by omega), ?_⟩
    rw [hx, hy]

end QuadRegion

namespace QuadRegion

/-! ## Concrete evaluations settling C1, C2, C3, C4, C10 and refuting C7 -/

theorem two_pow_ne_fourteen (k : Nat) : (2 : Int) ^ k ≠ 14 := by
  intro hk
  rcases Nat.lt_or_ge k 4 with h4 | h4
  · interval_cases k <;> norm_num at hk
  · have h16 : (2 : Int) ^ 4 ≤ (2 : Int) ^ k := pow_le_pow_right₀ (by norm_num) h4
    rw [hk] at h16
    norm_num at h16

/-- C1: the compression invariant (`full == true` implies all four child
slots absent) is the stated intent, but the code violates it: on the tree
over region `(0,0,2,2)`, adding the four region points and then re-adding
`(0,0)` leaves the root with `full == true` and a present child slot
(`childrenNull` is `false`). -/
theorem c1_duplicate_add_breaks_compression :
    (runAdds (QuadTree.make ⟨0, 0, 2, 2⟩)
        [(0, 0), (0, 1), (1, 0), (1, 1), (0, 0)]).map
      (fun t => t.root.map fun n => (n.full, n.childrenNull))
    = .ok (some (true, false)) := rfl

/-- C2: removing an in-region point that is absent does not return `false`;
it raises `AttributeError` (descending into a `None` child).  On the tree
over `(0,0,2,2)` holding only `(0,0)`, `remove((1,1))` faults. -/
theorem c2_remove_absent_point_raises :
    ((runAdds (QuadTree.make ⟨0, 0, 2, 2⟩) [(0, 0)]).bind
      fun t => treeRemove t (1, 1))
    = .error .noneAttr := rfl

/-- C3 counterexample: the canonical region obtained from the requested
bounds `(3,3,10,10)` is `(2,2,16,16)`, whose side length `14` is not a
power of two, refuting the power-of-two-sized part of the claim. -/
theorem c3_side_fourteen_not_power_of_two :
    (QuadTree.make ⟨3, 3, 10, 10⟩).region = ⟨2, 2, 16, 16⟩ ∧
    ¬ ∃ k : Nat,
        (QuadTree.make ⟨3, 3, 10, 10⟩).region.x_max -
          (QuadTree.make ⟨3, 3, 10, 10⟩).region.x_min = (2 : Int) ^ k := by
  refine ⟨rfl, ?_⟩
  rintro ⟨k, hk⟩
  rw [show (QuadTree.make ⟨3, 3, 10, 10⟩).region = ⟨2, 2, 16, 16⟩ from rfl] at hk
  exact two_pow_ne_fourteen k (by rw [← hk]; norm_num)

/-- C3 amended: the canonical region for requested bounds `(3,3,10,10)` is
square (shared mins, shared maxes, equal side lengths), each of its bounds
is a power of two (`2 = 2^1` and `16 = 2^4`), and it fully encloses the
rectangle `(3,3)-(10,10)`; but its side length is `14`, which is not itself
a power of two. -/
theorem c3_canonical_region_amended (p : Int × Int)
    (hp : containsPoint ⟨3, 3, 10, 10⟩ p = true) :
    ((QuadTree.make ⟨3, 3, 10, 10⟩).region.x_min
        = (QuadTree.make ⟨3, 3, 10, 10⟩).region.y_min ∧
      (QuadTree.make ⟨3, 3, 10, 10⟩).region.x_max
        = (QuadTree.make ⟨3, 3, 10, 10⟩).region.y_max) ∧
    (∃ i : Nat, (QuadTree.make ⟨3, 3, 10, 10⟩).region.x_min = (2 : Int) ^ i) ∧
    (∃ j : Nat, (QuadTree.make ⟨3, 3, 10, 10⟩).region.x_max = (2 : Int) ^ j) ∧
    (QuadTree.make ⟨3, 3, 10, 10⟩).region.x_max -
        (QuadTree.make ⟨3, 3, 10, 10⟩).region.x_min = 14 ∧
    containsPoint (QuadTree.make ⟨3, 3, 10, 10⟩).region p = true := by
  have hreg : (QuadTree.make ⟨3, 3, 10, 10⟩).region = ⟨2, 2, 16, 16⟩ := rfl
  rw [hreg]
  obtain ⟨px, py⟩ := p
  rw [containsPoint_iff] at hp
  dsimp only at hp
  refine ⟨⟨rfl, rfl⟩, ⟨1, by norm_num⟩, ⟨4, by norm_num⟩, by norm_num, ?_⟩
  rw [containsPoint_iff]
  dsimp only
  refine ⟨by omega, by omega, by omega, by omega⟩

theorem c3_canonical_region_amended_witness :
    containsPoint ⟨3, 3, 10, 10⟩ ((3 : Int), (3 : Int)) = true ∧
    containsPoint (QuadTree.make ⟨3, 3, 10, 10⟩).region (3, 3) = true :=
  ⟨by decide, (c3_canonical_region_amended (3, 3) (by decide)).2.2.2.2⟩

/-- C4: enumeration is not duplicate-free for every add/remove history: on
the tree over `(0,0,2,2)`, adding the four region points and re-adding
`(0,0)` makes `iterate()` yield `(0,0)` twice (five points for a four-point
set), because the spurious child below the still-full root is traversed
after the full root has already yielded its whole region. -/
theorem c4_iterate_yields_duplicates :
    (runAdds (QuadTree.make ⟨0, 0, 2, 2⟩)
        [(0, 0), (0, 1), (1, 0), (1, 1), (0, 0)]).map treePoints
      = .ok [(0, 0), (0, 1), (1, 0), (1, 1), (0, 0)] ∧
    ¬ ([((0 : Int), (0 : Int)), (0, 1), (1, 0), (1, 1), (0, 0)]
        : List (Int × Int)).Nodup :=
  ⟨rfl, by decide⟩

/-- C7 counterexample: the canonical region of the tree requested over
`(-2,-2,1,1)` is `(-2,-2,1,1)` itself, with side `3`; inserting all nine of
its integer points, each exactly once (the enumeration order), leaves the
root with `full == false`, refuting the claim for this canonical region and
order. -/
theorem c7_side_three_all_points_root_not_full :
    regionPoints (QuadTree.make ⟨-2, -2, 1, 1⟩).region =
      [(-2, -2), (-2, -1), (-2, 0), (-1, -2), (-1, -1), (-1, 0),
        (0, -2), (0, -1), (0, 0)] ∧
    (regionPoints (QuadTree.make ⟨-2, -2, 1, 1⟩).region).Nodup ∧
    (runAdds (QuadTree.make ⟨-2, -2, 1, 1⟩)
        (regionPoints (QuadTree.make ⟨-2, -2, 1, 1⟩).region)).map
      (fun t => t.root.map fun n => (n.full, n.childrenNull))
    = .ok (some (false, false)) :=
  ⟨rfl, by decide, rfl⟩

/-- C10: the constructor copies the caller's region before canonicalizing:
for every requested region the caller's region still holds its original four
bounds after construction, even when (as for `(3,3,10,10)`) the canonical
region of the tree differs from the request. -/
theorem c10_constructor_copies_callers_region :
    (∀ r : Region, (quadTreeInit r).1 = r) ∧
    (quadTreeInit ⟨3, 3, 10, 10⟩).2.region ≠ (⟨3, 3, 10, 10⟩ : Region) :=
  ⟨fun _ => rfl, by decide⟩

end QuadRegion

namespace QuadRegion

/-! ## Accessor lemmas -/

theorem region_setChild (n : QuadNode) (q : Quad) (c : Option QuadNode) :
    (n.setChild q c).region = n.region := by
  cases n <;> cases q <;> rfl

theorem full_setChild (n : QuadNode) (q : Quad) (c : Option QuadNode) :
    (n.setChild q c).full = n.full := by
  cases n <;> cases q <;> rfl

theorem child_setChild_self (n : QuadNode) (q : Quad) (c : Option QuadNode) :
    (n.setChild q c).child q = c := by
  cases n <;> cases q <;> rfl

theorem child_setChild_ne (n : QuadNode) (q q' : Quad) (c : Option QuadNode)
    (h : q' ≠ q) : (n.setChild q c).child q' = n.child q' := by
  cases n <;> cases q <;> cases q' <;> first | rfl | exact absurd rfl h

theorem region_setFull (n : QuadNode) (f : Bool) : (n.setFull f).region = n.region := by
  cases n <;> rfl

theorem full_setFull (n : QuadNode) (f : Bool) : (n.setFull f).full = f := by
  cases n <;> rfl

theorem child_setFull (n : QuadNode) (f : Bool) (q : Quad) :
    (n.setFull f).child q = n.child q := by
  cases n <;> cases q <;> rfl

theorem region_clearChildren (n : QuadNode) : n.clearChildren.region = n.region := by
  cases n <;> rfl

theorem full_clearChildren (n : QuadNode) : n.clearChildren.full = n.full := by
  cases n <;> rfl

theorem child_clearChildren (n : QuadNode) (q : Quad) :
    n.clearChildren.child q = none := by
  cases n <;> cases q <;> rfl

theorem region_subdivide (n : QuadNode) : n.subdivide.region = n.region := by
  cases n <;> rfl

theorem full_subdivide (n : QuadNode) : n.subdivide.full = n.full := by
  cases n <;> rfl

theorem child_subdivide (n : QuadNode) (q : Quad) :
    n.subdivide.child q = some (QuadNode.make (subregionR n.region q) n.full) := by
  cases n <;> cases q <;> rfl

theorem child_make (r : Region) (f : Bool) (q : Quad) :
    (QuadNode.make r f).child q = none := by
  cases q <;> rfl

theorem isPoint_iff (n : QuadNode) :
    n.isPoint = true ↔
      n.region.x_min + 1 = n.region.x_max ∧ n.region.y_min + 1 = n.region.y_max := by
  unfold QuadNode.isPoint
  simp

theorem childrenFull_eq (n : QuadNode) :
    n.childrenFull = true ↔ ∀ q, fullChild (n.child q) = true := by
  unfold QuadNode.childrenFull
  simp only [Bool.and_eq_true]
  constructor
  · rintro ⟨⟨⟨h1, h2⟩, h3⟩, h4⟩ q
    cases q <;> assumption
  · intro h
    exact ⟨⟨⟨h .NE, h .NW⟩, h .SW⟩, h .SE⟩

theorem childrenNull_eq (n : QuadNode) :
    n.childrenNull = true ↔ ∀ q, n.child q = none := by
  unfold QuadNode.childrenNull
  simp only [Bool.and_eq_true, Option.isNone_iff_eq_none]
  constructor
  · rintro ⟨⟨⟨h1, h2⟩, h3⟩, h4⟩ q
    cases q <;> assumption
  · intro h
    exact ⟨⟨⟨h .NE, h .NW⟩, h .SW⟩, h .SE⟩

theorem isPoint_region_eq (n m : QuadNode) (h : m.region = n.region) :
    m.isPoint = n.isPoint := by
  unfold QuadNode.isPoint
  rw [h]

/-! ## Routing lemmas: quadrants and subregions -/

theorem mem_subregion_quadrant (r : Region) (px py : Int)
    (h : containsPoint r (px, py) = true) :
    containsPoint (subregionR r (quadrantR r (px, py))) (px, py) = true := by
  rw [containsPoint_iff] at h
  unfold quadrantR
  split_ifs with h1 h2 h3 <;>
    · simp only [subregionR]
      rw [containsPoint_iff]
      unfold originX originY at *
      dsimp only at *
      refine ⟨by omega, by omega, by omega, by omega⟩

theorem quadrant_eq_of_mem_subregion (r : Region) (px py : Int) (q : Quad)
    (hx : r.x_min ≤ r.x_max) (hy : r.y_min ≤ r.y_max)
    (h : containsPoint (subregionR r q) (px, py) = true) :
    containsPoint r (px, py) = true ∧ quadrantR r (px, py) = q := by
  cases q <;>
    · simp only [subregionR] at h
      rw [containsPoint_iff] at h
      unfold quadrantR
      rw [containsPoint_iff]
      unfold originX originY at *
      dsimp only at *
      constructor
      · refine ⟨by omega, by omega, by omega, by omega⟩
      · split_ifs with h1 h2 h3 <;> first | rfl | (exfalso; omega)

theorem point_region_unique (r : Region) (px py qx qy : Int)
    (hx : r.x_min + 1 = r.x_max) (hy : r.y_min + 1 = r.y_max)
    (hp : containsPoint r (px, py) = true) (hq : containsPoint r (qx, qy) = true) :
    px = qx ∧ py = qy := by
  rw [containsPoint_iff] at hp hq
  omega

/-- C8: for a point `p` inside a node's region, the quadrant tag puts `p`
east exactly when `p.x ≥ origin.x` and north exactly when `p.y ≥ origin.y`
(ties resolving east/north), the subregion of `quadrant(p)` contains `p`,
the four subregions partition the region (`p` lies in `subregion(q)` for
exactly the `q = quadrant(p)`, and every subregion point is a region
point), and the parent's origin is a corner of each subregion. -/
theorem c8_quadrant_subregion_partition (n : QuadNode) (px py : Int)
    (hp : containsPoint n.region (px, py) = true) :
    ((n.quadrant (px, py) = Quad.NE ∨ n.quadrant (px, py) = Quad.SE) ↔
      originX n.region ≤ px) ∧
    ((n.quadrant (px, py) = Quad.NE ∨ n.quadrant (px, py) = Quad.NW) ↔
      originY n.region ≤ py) ∧
    containsPoint (n.subregion (n.quadrant (px, py))) (px, py) = true ∧
    (∀ q : Quad, containsPoint (n.subregion q) (px, py) = true ↔
      n.quadrant (px, py) = q) ∧
    (∀ (q : Quad) (qx qy : Int), containsPoint (n.subregion q) (qx, qy) = true →
      containsPoint n.region (qx, qy) = true) ∧
    (∀ q : Quad,
      ((n.subregion q).x_min = originX n.region ∨
        (n.subregion q).x_max = originX n.region) ∧
      ((n.subregion q).y_min = originY n.region ∨
        (n.subregion q).y_max = originY n.region)) := by
  have hb := (containsPoint_iff _ _ _).mp hp
  unfold QuadNode.subregion QuadNode.quadrant
  refine ⟨?_, ?_, mem_subregion_quadrant _ _ _ hp, ?_, ?_, ?_⟩
  · unfold quadrantR
    split_ifs with h1 h2 h3 <;> simp <;> omega
  · unfold quadrantR
    split_ifs with h1 h2 h3 <;> simp <;> omega
  · intro q
    constructor
    · intro h
      exact (quadrant_eq_of_mem_subregion n.region px py q (by omega) (by omega) h).2
    · rintro rfl
      exact mem_subregion_quadrant _ _ _ hp
  · intro q qx qy h
    exact (quadrant_eq_of_mem_subregion n.region qx qy q (by omega) (by omega) h).1
  · intro q
    cases q
    · exact ⟨Or.inl rfl, Or.inl rfl⟩
    · exact ⟨Or.inr rfl, Or.inl rfl⟩
    · exact ⟨Or.inr rfl, Or.inr rfl⟩
    · exact ⟨Or.inl rfl, Or.inr rfl⟩

theorem c8_quadrant_subregion_partition_witness :
    containsPoint (QuadNode.make ⟨0, 0, 2, 2⟩ false).region (0, 1) = true ∧
    containsPoint
      ((QuadNode.make ⟨0, 0, 2, 2⟩ false).subregion
        ((QuadNode.make ⟨0, 0, 2, 2⟩ false).quadrant (0, 1))) (0, 1) = true :=
  ⟨by decide,
    (c8_quadrant_subregion_partition (QuadNode.make ⟨0, 0, 2, 2⟩ false) 0 1
      (by decide)).2.2.1⟩

end QuadRegion

namespace QuadRegion

/-! ## Membership and insertion lemmas -/

theorem memOpt_some (p : Int × Int) (c : QuadNode) : memOpt p (some c) = memNode p c := rfl


theorem memNode_eq (p : Int × Int) (n : QuadNode) :
    memNode p n = (n.full || memOpt p (n.child (quadrantR n.region p))) := by
  cases n with
  | mk r f ne nw sw se =>
    cases f
    · cases hq : quadrantR r p <;> cases ne <;> cases nw <;> cases sw <;> cases se <;>
        simp [memNode, hq, memOpt, QuadNode.child, QuadNode.full, QuadNode.region]
    · cases ne <;> cases nw <;> cases sw <;> cases se <;>
        simp [memNode, memOpt, QuadNode.full]

theorem memNode_of_full (p : Int × Int) (n : QuadNode) (h : n.full = true) :
    memNode p n = true := by
  rw [memNode_eq, h, Bool.true_or]

theorem memNode_setChild_other (p : Int × Int) (n : QuadNode) (q : Quad)
    (c : Option QuadNode) (hne : quadrantR n.region p ≠ q) :
    memNode p (n.setChild q c) = memNode p n := by
  rw [memNode_eq, memNode_eq, region_setChild, full_setChild,
    child_setChild_ne _ _ _ _ hne]

theorem memNode_setChild_quad (p : Int × Int) (n c1 : QuadNode) (q : Quad)
    (hq : quadrantR n.region p = q) (h : memNode p c1 = true) :
    memNode p (n.setChild q (some c1)) = true := by
  rw [memNode_eq, region_setChild, full_setChild, hq, child_setChild_self,
    memOpt_some, h, Bool.or_true]

theorem addFinish_snd (n : QuadNode) : (addFinish n).2 = true := by
  unfold addFinish
  split <;> rfl

theorem addFinish_region (n : QuadNode) : (addFinish n).1.region = n.region := by
  unfold addFinish
  split
  · rw [region_clearChildren, region_setFull]
  · rfl

theorem addFinish_full_mono (n : QuadNode) (h : n.full = true) :
    (addFinish n).1.full = true := by
  unfold addFinish
  split
  · rw [full_clearChildren, full_setFull]
  · exact h

theorem addFinish_mem_mono (p : Int × Int) (n : QuadNode)
    (h : memNode p n = true) : memNode p (addFinish n).1 = true := by
  unfold addFinish
  split
  · rw [memNode_eq, full_clearChildren, full_setFull, Bool.true_or]
  · exact h

theorem nodeAdd_succ (fuel : Nat) (n : QuadNode) (pt : Int × Int) :
    nodeAdd (fuel + 1) n pt =
      match n.child (n.quadrant pt) with
      | none =>
        if (QuadNode.make (n.subregion (n.quadrant pt)) false).isPoint then
          .ok (addFinish (n.setChild (n.quadrant pt)
            (some ((QuadNode.make (n.subregion (n.quadrant pt)) false).setFull true))))
        else
          match nodeAdd fuel (QuadNode.make (n.subregion (n.quadrant pt)) false) pt with
          | .error e => .error e
          | .ok (c1, _) => .ok (addFinish (n.setChild (n.quadrant pt) (some c1)))
      | some c =>
        match nodeAdd fuel c pt with
        | .error e => .error e
        | .ok (c1, b) =>
          if b then .ok (addFinish (n.setChild (n.quadrant pt) (some c1)))
          else .ok (n.setChild (n.quadrant pt) (some c1), false) := rfl

/-- One induction giving the key facts about a terminating `QuadNode.add`
call: it reports `True`, keeps the node region, never clears `full`, makes
the added point a member, and keeps every previous member. -/
theorem nodeAdd_shape (fuel : Nat) (n : QuadNode) (pt : Int × Int)
    (n1 : QuadNode) (b : Bool) (h : nodeAdd fuel n pt = .ok (n1, b)) :
    b = true ∧ n1.region = n.region ∧ (n.full = true → n1.full = true) ∧
      memNode pt n1 = true ∧
      ∀ p, memNode p n = true → memNode p n1 = true := by
  induction fuel generalizing n n1 b with
  | zero => exact absurd h (by unfold nodeAdd; simp)
  | succ fuel ih =>
    rw [nodeAdd_succ] at h
    cases hc : n.child (n.quadrant pt) with
    | none =>
      rw [hc] at h
      dsimp only at h
      split at h
      · injection h with h
        obtain rfl : n1 = (addFinish (n.setChild (n.quadrant pt)
            (some ((QuadNode.make (n.subregion (n.quadrant pt)) false).setFull true)))).1 :=
          (congrArg Prod.fst h).symm
        obtain rfl : b = (addFinish (n.setChild (n.quadrant pt)
            (some ((QuadNode.make (n.subregion (n.quadrant pt)) false).setFull true)))).2 :=
          (congrArg Prod.snd h).symm
        refine ⟨addFinish_snd _, ?_, ?_, ?_, ?_⟩
        · rw [addFinish_region, region_setChild]
        · intro hf
          exact addFinish_full_mono _ (by rw [full_setChild]; exact hf)
        · exact addFinish_mem_mono _ _ (memNode_setChild_quad _ _ _ _ rfl
            (memNode_of_full _ _ (by rw [full_setFull])))
        · intro p hp
          apply addFinish_mem_mono
          by_cases hqq : quadrantR n.region p = n.quadrant pt
          · rw [memNode_eq] at hp
            cases hnf : n.full
            · rw [hnf, Bool.false_or] at hp
              rw [hqq, hc] at hp
              exact absurd hp (by simp [memOpt])
            · rw [memNode_eq, region_setChild, full_setChild, hnf, Bool.true_or]
          · rw [memNode_setChild_other _ _ _ _ hqq]
            exact hp
      · cases hr : nodeAdd fuel (QuadNode.make (n.subregion (n.quadrant pt)) false) pt with
        | error e =>
          rw [hr] at h
          exact absurd h (by simp)
        | ok val =>
          obtain ⟨c1, b0⟩ := val
          rw [hr] at h
          dsimp only at h
          injection h with h
          obtain rfl : n1 = (addFinish (n.setChild (n.quadrant pt) (some c1))).1 :=
            (congrArg Prod.fst h).symm
          obtain rfl : b = (addFinish (n.setChild (n.quadrant pt) (some c1))).2 :=
            (congrArg Prod.snd h).symm
          obtain ⟨hb0, hreg0, hfull0, hself0, hmono0⟩ := ih _ _ _ hr
          refine ⟨addFinish_snd _, ?_, ?_, ?_, ?_⟩
          · rw [addFinish_region, region_setChild]
          · intro hf
            exact addFinish_full_mono _ (by rw [full_setChild]; exact hf)
          · exact addFinish_mem_mono _ _ (memNode_setChild_quad _ _ _ _ rfl hself0)
          · intro p hp
            apply addFinish_mem_mono
            by_cases hqq : quadrantR n.region p = n.quadrant pt
            · rw [memNode_eq] at hp
              cases hnf : n.full
              · rw [hnf, Bool.false_or] at hp
                rw [hqq, hc] at hp
                exact absurd hp (by simp [memOpt])
              · rw [memNode_eq, region_setChild, full_setChild, hnf, Bool.true_or]
            · rw [memNode_setChild_other _ _ _ _ hqq]
              exact hp
    | some c =>
      rw [hc] at h
      dsimp only at h
      cases hr : nodeAdd fuel c pt with
      | error e =>
        rw [hr] at h
        exact absurd h (by simp)
      | ok val =>
        obtain ⟨c1, b0⟩ := val
        rw [hr] at h
        dsimp only at h
        obtain ⟨hb0, hreg0, hfull0, hself0, hmono0⟩ := ih _ _ _ hr
        subst hb0
        rw [if_pos rfl] at h
        injection h with h
        obtain rfl : n1 = (addFinish (n.setChild (n.quadrant pt) (some c1))).1 :=
          (congrArg Prod.fst h).symm
        obtain rfl : b = (addFinish (n.setChild (n.quadrant pt) (some c1))).2 :=
          (congrArg Prod.snd h).symm
        refine ⟨addFinish_snd _, ?_, ?_, ?_, ?_⟩
        · rw [addFinish_region, region_setChild]
        · intro hf
          exact addFinish_full_mono _ (by rw [full_setChild]; exact hf)
        · exact addFinish_mem_mono _ _ (memNode_setChild_quad _ _ _ _ rfl hself0)
        · intro p hp
          apply addFinish_mem_mono
          by_cases hqq : quadrantR n.region p = n.quadrant pt
          · rw [memNode_eq] at hp
            cases hnf : n.full
            · rw [hnf, Bool.false_or] at hp
              rw [hqq, hc] at hp
              rw [memOpt_some] at hp
              exact memNode_setChild_quad _ _ _ _ hqq (hmono0 p hp)
            · rw [memNode_eq, region_setChild, full_setChild, hnf, Bool.true_or]
          · rw [memNode_setChild_other _ _ _ _ hqq]
            exact hp

end QuadRegion

namespace QuadRegion

/-! ## Tree-level insertion lemmas, C9 and C5 -/

theorem treeContains_eq (t : QuadTree) (pt : Int × Int) :
    treeContains t pt = (containsPoint t.region pt && memOpt pt t.root) := by
  unfold treeContains
  cases hcp : containsPoint t.region pt <;> cases hr : t.root <;>
    simp [hcp, hr, memOpt]

theorem treeAdd_mem_self (t : QuadTree) (pt : Int × Int) (t1 : QuadTree) (b : Bool)
    (hin : containsPoint t.region pt = true)
    (h : treeAdd t pt = .ok (t1, b)) : treeContains t1 pt = true := by
  unfold treeAdd at h
  rw [if_neg (by simp [hin])] at h
  dsimp only at h
  cases hr : nodeAdd (treeFuel t) (t.root.getD (QuadNode.make t.region false)) pt with
  | error e =>
    rw [hr] at h
    exact absurd h (by simp)
  | ok val =>
    obtain ⟨r1, b0⟩ := val
    rw [hr] at h
    dsimp only at h
    injection h with h
    obtain rfl : t1 = { t with root := some r1 } := (congrArg Prod.fst h).symm
    obtain ⟨_, _, _, hself, _⟩ := nodeAdd_shape _ _ _ _ _ hr
    rw [treeContains_eq]
    show (containsPoint t.region pt && memOpt pt (some r1)) = true
    rw [hin, memOpt_some, hself, Bool.and_self]

theorem treeAdd_mem_mono (t : QuadTree) (pt : Int × Int) (t1 : QuadTree) (b : Bool)
    (h : treeAdd t pt = .ok (t1, b)) (p : Int × Int)
    (hm : treeContains t p = true) : treeContains t1 p = true := by
  unfold treeAdd at h
  split at h
  · injection h with h
    obtain rfl : t = t1 := congrArg Prod.fst h
    exact hm
  · dsimp only at h
    cases hr : nodeAdd (treeFuel t) (t.root.getD (QuadNode.make t.region false)) pt with
    | error e =>
      rw [hr] at h
      exact absurd h (by simp)
    | ok val =>
      obtain ⟨r1, b0⟩ := val
      rw [hr] at h
      dsimp only at h
      injection h with h
      obtain rfl : t1 = { t with root := some r1 } := (congrArg Prod.fst h).symm
      rw [treeContains_eq] at hm
      simp only [Bool.and_eq_true] at hm
      obtain ⟨hcp, hmem⟩ := hm
      cases hroot : t.root with
      | none =>
        rw [hroot] at hmem
        exact absurd hmem (by simp [memOpt])
      | some n0 =>
        rw [hroot] at hmem
        rw [memOpt_some] at hmem
        rw [hroot] at hr
        rw [Option.getD_some] at hr
        obtain ⟨_, _, _, _, hmono⟩ := nodeAdd_shape _ _ _ _ _ hr
        rw [treeContains_eq]
        show (containsPoint t.region p && memOpt p (some r1)) = true
        rw [hcp, memOpt_some, hmono p hmem, Bool.and_self]

theorem runAdds_mem_mono (ps : List (Int × Int)) (t t2 : QuadTree) (p : Int × Int)
    (h : runAdds t ps = .ok t2) (hm : treeContains t p = true) :
    treeContains t2 p = true := by
  induction ps generalizing t with
  | nil =>
    unfold runAdds at h
    injection h with h
    rw [← h]
    exact hm
  | cons q ps ih =>
    unfold runAdds at h
    cases ha : treeAdd t q with
    | error e =>
      rw [ha] at h
      exact absurd h (by simp)
    | ok val =>
      obtain ⟨t1, b⟩ := val
      rw [ha] at h
      dsimp only at h
      exact ih t1 h (treeAdd_mem_mono t q t1 b ha p hm)

/-- C9: whenever `QuadTree.add` is called on an in-region point and the run
terminates, it returns `True` — including when the point is already present
(the docstring's promise to return `False` for duplicates is never kept,
since `QuadNode.add` has no terminating `False` branch). -/
theorem c9_add_returns_true (t : QuadTree) (pt : Int × Int) (t1 : QuadTree) (b : Bool)
    (hin : containsPoint t.region pt = true)
    (h : treeAdd t pt = .ok (t1, b)) : b = true := by
  unfold treeAdd at h
  rw [if_neg (by simp [hin])] at h
  dsimp only at h
  cases hr : nodeAdd (treeFuel t) (t.root.getD (QuadNode.make t.region false)) pt with
  | error e =>
    rw [hr] at h
    exact absurd h (by simp)
  | ok val =>
    obtain ⟨r1, b0⟩ := val
    rw [hr] at h
    dsimp only at h
    injection h with h
    obtain rfl : b = b0 := (congrArg Prod.snd h).symm
    exact (nodeAdd_shape _ _ _ _ _ hr).1

theorem c9_add_returns_true_witness :
    containsPoint (QuadTree.make ⟨0, 0, 2, 2⟩).region (0, 0) = true ∧ true = true := by
  refine ⟨by decide, ?_⟩
  exact c9_add_returns_true (QuadTree.make ⟨0, 0, 2, 2⟩) (0, 0) _ true (by decide) rfl

/-- C5: inserting an in-region point `p` into a freshly constructed tree
makes `contains(p)` true, and it stays true after any further terminating
insertions of other, distinct in-region points. -/
theorem c5_contains_roundtrip (r : Region) (p : Int × Int) (ps : List (Int × Int))
    (t1 t2 : QuadTree) (b : Bool)
    (hp : containsPoint (QuadTree.make r).region p = true)
    (hadd : treeAdd (QuadTree.make r) p = .ok (t1, b))
    (hothers : ∀ q ∈ ps, q ≠ p ∧ containsPoint (QuadTree.make r).region q = true)
    (hrun : runAdds t1 ps = .ok t2) :
    treeContains t1 p = true ∧ treeContains t2 p = true := by
  have h1 : treeContains t1 p = true := treeAdd_mem_self _ _ _ _ hp hadd
  exact ⟨h1, runAdds_mem_mono ps t1 t2 p hrun h1⟩

theorem c5_contains_roundtrip_witness :
    containsPoint (QuadTree.make ⟨0, 0, 2, 2⟩).region (0, 0) = true ∧
    (treeContains
        ⟨some (.mk ⟨0, 0, 2, 2⟩ false none none
          (some (.mk ⟨0, 0, 1, 1⟩ true none none none none)) none), ⟨0, 0, 2, 2⟩⟩
        (0, 0) = true ∧
      treeContains
        ⟨some (.mk ⟨0, 0, 2, 2⟩ false
          (some (.mk ⟨1, 1, 2, 2⟩ true none none none none)) none
          (some (.mk ⟨0, 0, 1, 1⟩ true none none none none)) none), ⟨0, 0, 2, 2⟩⟩
        (0, 0) = true) := by
  refine ⟨by decide, ?_⟩
  exact c5_contains_roundtrip ⟨0, 0, 2, 2⟩ (0, 0) [(1, 1)] _ _ true
    (by decide) rfl (by decide) rfl

end QuadRegion

namespace QuadRegion

/-! ## Well-formedness and its preservation by add -/

theorem WF_child_region (n : QuadNode) (hwf : WF n) (q : Quad) (c : QuadNode)
    (h : n.child q = some c) : c.region = subregionR n.region q := by
  cases hwf with
  | intro n hreg hch => exact hreg q c h

theorem WF_child (n : QuadNode) (hwf : WF n) (q : Quad) (c : QuadNode)
    (h : n.child q = some c) : WF c := by
  cases hwf with
  | intro n hreg hch => exact hch q c h

theorem WF_make (r : Region) (f : Bool) : WF (QuadNode.make r f) := by
  constructor <;> intro q c h <;> rw [child_make] at h <;> exact absurd h (by simp)

theorem WF_setChild_opt (n : QuadNode) (q : Quad) (c : Option QuadNode)
    (hwf : WF n)
    (hc : ∀ m, c = some m → m.region = subregionR n.region q ∧ WF m) :
    WF (n.setChild q c) := by
  constructor <;> intro q' c' h'
  · by_cases hq : q' = q
    · subst hq
      rw [child_setChild_self] at h'
      rw [region_setChild]
      exact (hc c' h').1
    · rw [child_setChild_ne _ _ _ _ hq] at h'
      rw [region_setChild]
      exact WF_child_region n hwf q' c' h'
  · by_cases hq : q' = q
    · subst hq
      rw [child_setChild_self] at h'
      exact (hc c' h').2
    · rw [child_setChild_ne _ _ _ _ hq] at h'
      exact WF_child n hwf q' c' h'

theorem WF_setFull (n : QuadNode) (f : Bool) (hwf : WF n) : WF (n.setFull f) := by
  constructor <;> intro q c h <;> rw [child_setFull] at h
  · rw [region_setFull]
    exact WF_child_region n hwf q c h
  · exact WF_child n hwf q c h

theorem WF_subdivide (n : QuadNode) : WF n.subdivide := by
  constructor <;> intro q c h <;> rw [child_subdivide] at h <;>
    injection h with h
  · rw [← h, region_subdivide]
    rfl
  · rw [← h]
    exact WF_make _ _

theorem WF_clearChildren (n : QuadNode) : WF n.clearChildren := by
  constructor <;> intro q c h <;> rw [child_clearChildren] at h <;>
    exact absurd h (by simp)

theorem addFinish_WF (n : QuadNode) (hwf : WF n) : WF (addFinish n).1 := by
  unfold addFinish
  split
  · exact WF_clearChildren _
  · exact hwf

theorem nodeAdd_WF (fuel : Nat) (n : QuadNode) (pt : Int × Int)
    (n1 : QuadNode) (b : Bool) (hwf : WF n) (h : nodeAdd fuel n pt = .ok (n1, b)) :
    WF n1 := by
  induction fuel generalizing n n1 b with
  | zero => exact absurd h (by unfold nodeAdd; simp)
  | succ fuel ih =>
    rw [nodeAdd_succ] at h
    cases hc : n.child (n.quadrant pt) with
    | none =>
      rw [hc] at h
      dsimp only at h
      split at h
      · injection h with h
        obtain rfl : n1 = (addFinish (n.setChild (n.quadrant pt)
            (some ((QuadNode.make (n.subregion (n.quadrant pt)) false).setFull true)))).1 :=
          (congrArg Prod.fst h).symm
        refine addFinish_WF _ (WF_setChild_opt _ _ _ hwf ?_)
        intro m hm
        injection hm with hm
        rw [← hm]
        constructor
        · rw [region_setFull]
          rfl
        · exact WF_setFull _ _ (WF_make _ _)
      · cases hr : nodeAdd fuel (QuadNode.make (n.subregion (n.quadrant pt)) false) pt with
        | error e =>
          rw [hr] at h
          exact absurd h (by simp)
        | ok val =>
          obtain ⟨c1, b0⟩ := val
          rw [hr] at h
          dsimp only at h
          injection h with h
          obtain rfl : n1 = (addFinish (n.setChild (n.quadrant pt) (some c1))).1 :=
            (congrArg Prod.fst h).symm
          obtain ⟨_, hreg0, _, _, _⟩ := nodeAdd_shape _ _ _ _ _ hr
          refine addFinish_WF _ (WF_setChild_opt _ _ _ hwf ?_)
          intro m hm
          injection hm with hm
          rw [← hm]
          constructor
          · rw [hreg0]
            rfl
          · exact ih _ _ _ (WF_make _ _) hr
    | some c =>
      rw [hc] at h
      dsimp only at h
      cases hr : nodeAdd fuel c pt with
      | error e =>
        rw [hr] at h
        exact absurd h (by simp)
      | ok val =>
        obtain ⟨c1, b0⟩ := val
        rw [hr] at h
        dsimp only at h
        obtain ⟨hb0, hreg0, _, _, _⟩ := nodeAdd_shape _ _ _ _ _ hr
        subst hb0
        rw [if_pos rfl] at h
        injection h with h
        obtain rfl : n1 = (addFinish (n.setChild (n.quadrant pt) (some c1))).1 :=
          (congrArg Prod.fst h).symm
        refine addFinish_WF _ (WF_setChild_opt _ _ _ hwf ?_)
        intro m hm
        injection hm with hm
        rw [← hm]
        constructor
        · rw [hreg0]
          exact WF_child_region n hwf _ _ hc
        · exact ih _ _ _ (WF_child n hwf _ _ hc) hr

end QuadRegion

namespace QuadRegion

/-! ## Removal lemmas -/

theorem nodeRemove_succ (fuel : Nat) (n : QuadNode) (pt : Int × Int) :
    nodeRemove (fuel + 1) n pt =
      if n.isPoint then .ok (none, true)
      else
        match (if n.full then n.subdivide.setFull false else n).child (n.quadrant pt) with
        | none => .error .noneAttr
        | some c =>
          match nodeRemove fuel c pt with
          | .error e => .error e
          | .ok (c1, updated) =>
            if ((if n.full then n.subdivide.setFull false else n).setChild
                (n.quadrant pt) c1).childrenNull then
              .ok (none, updated)
            else
              .ok (some ((if n.full then n.subdivide.setFull false else n).setChild
                (n.quadrant pt) c1), updated) := rfl

theorem subdivNode_region (n : QuadNode) :
    (if n.full then n.subdivide.setFull false else n).region = n.region := by
  split
  · rw [region_setFull, region_subdivide]
  · rfl

theorem subdivNode_full (n : QuadNode) :
    (if n.full then n.subdivide.setFull false else n).full = false := by
  split
  · rw [full_setFull]
  · rename_i hf
    rw [Bool.not_eq_true] at hf
    exact hf

theorem subdivNode_WF (n : QuadNode) (hwf : WF n) :
    WF (if n.full then n.subdivide.setFull false else n) := by
  split
  · exact WF_setFull _ _ (WF_subdivide n)
  · exact hwf

theorem subdivNode_mem (n : QuadNode) (p : Int × Int) (hmem : memNode p n = true) :
    memNode p (if n.full then n.subdivide.setFull false else n) = true := by
  split
  · rename_i hf
    rw [memNode_eq, region_setFull, region_subdivide, child_setFull, child_subdivide, hf]
    rw [memOpt_some,
      memNode_of_full p (QuadNode.make (subregionR n.region (quadrantR n.region p)) true) rfl,
      Bool.or_true]
  · exact hmem

theorem nodeRemove_shape (fuel : Nat) (n : QuadNode) (pt : Int × Int)
    (res : Option QuadNode) (b : Bool) (h : nodeRemove fuel n pt = .ok (res, b)) :
    b = true ∧ (∀ m, res = some m → m.region = n.region ∧ m.full = false) ∧
      memOpt pt res = false := by
  induction fuel generalizing n res b with
  | zero => exact absurd h (by unfold nodeRemove; simp)
  | succ fuel ih =>
    rw [nodeRemove_succ] at h
    split at h
    · injection h with h
      obtain rfl : res = none := (congrArg Prod.fst h).symm
      obtain rfl : b = true := (congrArg Prod.snd h).symm
      exact ⟨rfl, fun m hm => absurd hm (by simp), rfl⟩
    · cases hmc : (if n.full then n.subdivide.setFull false else n).child (n.quadrant pt) with
      | none =>
        rw [hmc] at h
        exact absurd h (by simp)
      | some c =>
        rw [hmc] at h
        dsimp only at h
        cases hr : nodeRemove fuel c pt with
        | error e =>
          rw [hr] at h
          exact absurd h (by simp)
        | ok val =>
          obtain ⟨c1, u⟩ := val
          rw [hr] at h
          dsimp only at h
          obtain ⟨hu, hres1, hmemc⟩ := ih _ _ _ hr
          subst hu
          by_cases hnull : ((if n.full then n.subdivide.setFull false else n).setChild
              (n.quadrant pt) c1).childrenNull = true
          · rw [if_pos hnull] at h
            injection h with h
            obtain rfl : res = none := (congrArg Prod.fst h).symm
            obtain rfl : b = true := (congrArg Prod.snd h).symm
            exact ⟨rfl, fun m hm => absurd hm (by simp), rfl⟩
          · rw [if_neg hnull] at h
            injection h with h
            obtain rfl : res = some ((if n.full then n.subdivide.setFull false else n).setChild
                (n.quadrant pt) c1) := (congrArg Prod.fst h).symm
            obtain rfl : b = true := (congrArg Prod.snd h).symm
            refine ⟨rfl, ?_, ?_⟩
            · intro m hm
              injection hm with hm
              rw [← hm]
              constructor
              · rw [region_setChild, subdivNode_region]
              · rw [full_setChild, subdivNode_full]
            · rw [memOpt_some, memNode_eq]
              have hreg : ((if n.full then n.subdivide.setFull false else n).setChild
                  (n.quadrant pt) c1).region = n.region := by
                rw [region_setChild, subdivNode_region]
              rw [full_setChild, subdivNode_full, Bool.false_or, hreg]
              have hqdef : quadrantR n.region pt = n.quadrant pt := rfl
              rw [hqdef, child_setChild_self]
              exact hmemc

theorem nodeRemove_WF (fuel : Nat) (n : QuadNode) (pt : Int × Int)
    (res : Option QuadNode) (b : Bool) (hwf : WF n)
    (h : nodeRemove fuel n pt = .ok (res, b)) :
    ∀ m, res = some m → WF m := by
  induction fuel generalizing n res b with
  | zero => exact absurd h (by unfold nodeRemove; simp)
  | succ fuel ih =>
    rw [nodeRemove_succ] at h
    split at h
    · injection h with h
      obtain rfl : res = none := (congrArg Prod.fst h).symm
      intro m hm
      exact absurd hm (by simp)
    · cases hmc : (if n.full then n.subdivide.setFull false else n).child (n.quadrant pt) with
      | none =>
        rw [hmc] at h
        exact absurd h (by simp)
      | some c =>
        rw [hmc] at h
        dsimp only at h
        cases hr : nodeRemove fuel c pt with
        | error e =>
          rw [hr] at h
          exact absurd h (by simp)
        | ok val =>
          obtain ⟨c1, u⟩ := val
          rw [hr] at h
          dsimp only at h
          have hmwf : WF (if n.full then n.subdivide.setFull false else n) :=
            subdivNode_WF n hwf
          have hcwf : WF c := WF_child _ hmwf _ _ hmc
          have hcreg : c.region =
              subregionR (if n.full then n.subdivide.setFull false else n).region
                (n.quadrant pt) := WF_child_region _ hmwf _ _ hmc
          by_cases hnull : ((if n.full then n.subdivide.setFull false else n).setChild
              (n.quadrant pt) c1).childrenNull = true
          · rw [if_pos hnull] at h
            injection h with h
            obtain rfl : res = none := (congrArg Prod.fst h).symm
            intro m hm
            exact absurd hm (by simp)
          · rw [if_neg hnull] at h
            injection h with h
            obtain rfl : res = some ((if n.full then n.subdivide.setFull false else n).setChild
                (n.quadrant pt) c1) := (congrArg Prod.fst h).symm
            intro m hm
            injection hm with hm
            rw [← hm]
            refine WF_setChild_opt _ _ _ hmwf ?_
            intro m1 hm1
            subst hm1
            constructor
            · rw [(nodeRemove_shape _ _ _ _ _ hr).2.1 m1 rfl |>.1, hcreg]
            · exact ih _ _ _ hcwf hr m1 rfl

end QuadRegion

namespace QuadRegion

/-- Removing one point keeps every other in-region member: the core of C6. -/
theorem nodeRemove_mem_mono (fuel : Nat) (n : QuadNode) (qx qy px py : Int)
    (res : Option QuadNode) (b : Bool)
    (hwf : WF n)
    (hpt : containsPoint n.region (qx, qy) = true)
    (hp : containsPoint n.region (px, py) = true)
    (hne : ((px, py) : Int × Int) ≠ (qx, qy))
    (hmem : memNode (px, py) n = true)
    (h : nodeRemove fuel n (qx, qy) = .ok (res, b)) :
    memOpt (px, py) res = true := by
  induction fuel generalizing n res b with
  | zero => exact absurd h (by unfold nodeRemove; simp)
  | succ fuel ih =>
    rw [nodeRemove_succ] at h
    split at h
    · rename_i hip
      obtain ⟨hx, hy⟩ := (isPoint_iff n).mp hip
      obtain ⟨h1, h2⟩ := point_region_unique n.region px py qx qy hx hy hp hpt
      exact absurd (by rw [h1, h2]) hne
    · rename_i hip
      have hmreg : (if n.full then n.subdivide.setFull false else n).region = n.region :=
        subdivNode_region n
      have hmfull : (if n.full then n.subdivide.setFull false else n).full = false :=
        subdivNode_full n
      have hmwf : WF (if n.full then n.subdivide.setFull false else n) := subdivNode_WF n hwf
      have hmemm : memNode (px, py) (if n.full then n.subdivide.setFull false else n) = true :=
        subdivNode_mem n (px, py) hmem
      rw [memNode_eq, hmfull, Bool.false_or, hmreg] at hmemm
      cases hmc : (if n.full then n.subdivide.setFull false else n).child
          (n.quadrant (qx, qy)) with
      | none =>
        rw [hmc] at h
        exact absurd h (by simp)
      | some c =>
        rw [hmc] at h
        dsimp only at h
        cases hr : nodeRemove fuel c (qx, qy) with
        | error e =>
          rw [hr] at h
          exact absurd h (by simp)
        | ok val =>
          obtain ⟨c1, u⟩ := val
          rw [hr] at h
          dsimp only at h
          have hcreg : c.region = subregionR n.region (n.quadrant (qx, qy)) := by
            have hx := WF_child_region _ hmwf _ _ hmc
            rw [hmreg] at hx
            exact hx
          have hcwf : WF c := WF_child _ hmwf _ _ hmc
          have hqdef : n.quadrant (qx, qy) = quadrantR n.region (qx, qy) := rfl
          by_cases hqq : quadrantR n.region (px, py) = quadrantR n.region (qx, qy)
          · have hmemc : memNode (px, py) c = true := by
              rw [hqq, ← hqdef, hmc, memOpt_some] at hmemm
              exact hmemm
            have hptc : containsPoint c.region (qx, qy) = true := by
              rw [hcreg, hqdef]
              exact mem_subregion_quadrant n.region qx qy hpt
            have hpc : containsPoint c.region (px, py) = true := by
              rw [hcreg, hqdef, ← hqq]
              exact mem_subregion_quadrant n.region px py hp
            have ihc := ih c c1 u hcwf hptc hpc hmemc hr
            cases hc1 : c1 with
            | none =>
              rw [hc1] at ihc
              exact absurd ihc (by simp [memOpt])
            | some m1 =>
              rw [hc1, memOpt_some] at ihc
              by_cases hnull : ((if n.full then n.subdivide.setFull false else n).setChild
                  (n.quadrant (qx, qy)) c1).childrenNull = true
              · exfalso
                have hall := (childrenNull_eq _).mp hnull (n.quadrant (qx, qy))
                rw [child_setChild_self, hc1] at hall
                exact absurd hall (by simp)
              · rw [if_neg hnull] at h
                injection h with h
                obtain rfl : res = some ((if n.full then n.subdivide.setFull false else n).setChild
                    (n.quadrant (qx, qy)) c1) := (congrArg Prod.fst h).symm
                rw [memOpt_some, memNode_eq, full_setChild, hmfull, Bool.false_or,
                  region_setChild, hmreg, hqq, ← hqdef, child_setChild_self, hc1, memOpt_some]
                exact ihc
          · have hne' : quadrantR n.region (px, py) ≠ n.quadrant (qx, qy) := by
              rw [hqdef]
              exact hqq
            cases hc2 : (if n.full then n.subdivide.setFull false else n).child
                (quadrantR n.region (px, py)) with
            | none =>
              rw [hc2] at hmemm
              exact absurd hmemm (by simp [memOpt])
            | some c2 =>
              rw [hc2, memOpt_some] at hmemm
              by_cases hnull : ((if n.full then n.subdivide.setFull false else n).setChild
                  (n.quadrant (qx, qy)) c1).childrenNull = true
              · exfalso
                have hall := (childrenNull_eq _).mp hnull (quadrantR n.region (px, py))
                rw [child_setChild_ne _ _ _ _ hne', hc2] at hall
                exact absurd hall (by simp)
              · rw [if_neg hnull] at h
                injection h with h
                obtain rfl : res = some ((if n.full then n.subdivide.setFull false else n).setChild
                    (n.quadrant (qx, qy)) c1) := (congrArg Prod.fst h).symm
                rw [memOpt_some, memNode_eq, full_setChild, hmfull, Bool.false_or,
                  region_setChild, hmreg, child_setChild_ne _ _ _ _ hne', hc2, memOpt_some]
                exact hmemm

end QuadRegion

namespace QuadRegion

/-! ## Well-formedness of reachable trees and C6 -/

theorem WFT_some (t : QuadTree) (n : QuadNode) (h : t.root = some n) (hw : WFT t) :
    WF n ∧ n.region = t.region := by
  unfold WFT at hw
  rw [h] at hw
  exact hw

theorem WFT_make (r : Region) : WFT (QuadTree.make r) := trivial

theorem treeAdd_WFT (t : QuadTree) (pt : Int × Int) (t1 : QuadTree) (b : Bool)
    (hw : WFT t) (h : treeAdd t pt = .ok (t1, b)) : WFT t1 := by
  unfold treeAdd at h
  split at h
  · injection h with h
    obtain rfl : t = t1 := congrArg Prod.fst h
    exact hw
  · dsimp only at h
    cases hr : nodeAdd (treeFuel t) (t.root.getD (QuadNode.make t.region false)) pt with
    | error e =>
      rw [hr] at h
      exact absurd h (by simp)
    | ok val =>
      obtain ⟨r1, b0⟩ := val
      rw [hr] at h
      dsimp only at h
      injection h with h
      obtain rfl : t1 = { t with root := some r1 } := (congrArg Prod.fst h).symm
      have hstart : WF (t.root.getD (QuadNode.make t.region false)) ∧
          (t.root.getD (QuadNode.make t.region false)).region = t.region := by
        cases hroot : t.root with
        | none =>
          rw [Option.getD_none]
          exact ⟨WF_make _ _, rfl⟩
        | some n0 =>
          rw [Option.getD_some]
          exact WFT_some t n0 hroot hw
      obtain ⟨hswf, hsreg⟩ := hstart
      show WF r1 ∧ r1.region = t.region
      exact ⟨nodeAdd_WF _ _ _ _ _ hswf hr,
        by rw [(nodeAdd_shape _ _ _ _ _ hr).2.1, hsreg]⟩

theorem treeRemove_WFT (t : QuadTree) (pt : Int × Int) (t1 : QuadTree) (b : Bool)
    (hw : WFT t) (h : treeRemove t pt = .ok (t1, b)) : WFT t1 := by
  unfold treeRemove at h
  cases hroot : t.root with
  | none =>
    rw [hroot] at h
    injection h with h
    obtain rfl : t = t1 := congrArg Prod.fst h
    exact hw
  | some n0 =>
    rw [hroot] at h
    dsimp only at h
    split at h
    · injection h with h
      obtain rfl : t = t1 := congrArg Prod.fst h
      exact hw
    · cases hr : nodeRemove (treeFuel t) n0 pt with
      | error e =>
        rw [hr] at h
        exact absurd h (by simp)
      | ok val =>
        obtain ⟨res, u⟩ := val
        rw [hr] at h
        dsimp only at h
        injection h with h
        obtain rfl : t1 = { t with root := res } := (congrArg Prod.fst h).symm
        obtain ⟨hwf0, hreg0⟩ := WFT_some t n0 hroot hw
        unfold WFT
        cases hres : res with
        | none => exact trivial
        | some m =>
          refine ⟨nodeRemove_WF _ _ _ _ _ hwf0 hr m hres, ?_⟩
          rw [((nodeRemove_shape _ _ _ _ _ hr).2.1 m hres).1, hreg0]

theorem applyOp_add (t : QuadTree) (pt : Int × Int) :
    applyOp t (.add pt) =
      match treeAdd t pt with
      | .error e => .error e
      | .ok (t1, _) => .ok t1 := rfl

theorem applyOp_remove (t : QuadTree) (pt : Int × Int) :
    applyOp t (.remove pt) =
      match treeRemove t pt with
      | .error e => .error e
      | .ok (t1, _) => .ok t1 := rfl

theorem applyOp_WFT (t : QuadTree) (op : Op) (t1 : QuadTree)
    (hw : WFT t) (h : applyOp t op = .ok t1) : WFT t1 := by
  cases op with
  | add pt =>
    rw [applyOp_add] at h
    cases ha : treeAdd t pt with
    | error e =>
      rw [ha] at h
      exact absurd h (by simp)
    | ok val =>
      obtain ⟨t1x, b⟩ := val
      rw [ha] at h
      dsimp only at h
      injection h with h
      rw [← h]
      exact treeAdd_WFT _ _ _ _ hw ha
  | remove pt =>
    rw [applyOp_remove] at h
    cases ha : treeRemove t pt with
    | error e =>
      rw [ha] at h
      exact absurd h (by simp)
    | ok val =>
      obtain ⟨t1x, b⟩ := val
      rw [ha] at h
      dsimp only at h
      injection h with h
      rw [← h]
      exact treeRemove_WFT _ _ _ _ hw ha

theorem runOps_WFT (ops : List Op) (t t2 : QuadTree)
    (hw : WFT t) (h : runOps t ops = .ok t2) : WFT t2 := by
  induction ops generalizing t with
  | nil =>
    unfold runOps at h
    injection h with h
    rw [← h]
    exact hw
  | cons op ops ih =>
    unfold runOps at h
    cases ha : applyOp t op with
    | error e =>
      rw [ha] at h
      exact absurd h (by simp)
    | ok t1 =>
      rw [ha] at h
      exact ih t1 (applyOp_WFT t op t1 hw ha) h

/-- C6: on any tree reachable by operations from a constructed QuadTree, if
`p` is present and `remove(p)` terminates, then `contains(p)` is false
afterwards and every other present point stays present. -/
theorem c6_remove_correct (r : Region) (ops : List Op) (t t1 : QuadTree)
    (px py : Int) (b : Bool)
    (hreach : runOps (QuadTree.make r) ops = .ok t)
    (hp : treeContains t (px, py) = true)
    (hrem : treeRemove t (px, py) = .ok (t1, b)) :
    treeContains t1 (px, py) = false ∧
      ∀ qx qy : Int, ((qx, qy) : Int × Int) ≠ (px, py) →
        treeContains t (qx, qy) = true → treeContains t1 (qx, qy) = true := by
  have hw : WFT t := runOps_WFT ops (QuadTree.make r) t (WFT_make r) hreach
  rw [treeContains_eq] at hp
  simp only [Bool.and_eq_true] at hp
  obtain ⟨hcp, hmem⟩ := hp
  unfold treeRemove at hrem
  cases hroot : t.root with
  | none =>
    rw [hroot] at hmem
    exact absurd hmem (by simp [memOpt])
  | some n0 =>
    rw [hroot] at hrem
    dsimp only at hrem
    rw [if_neg (by simp [hcp])] at hrem
    cases hr : nodeRemove (treeFuel t) n0 (px, py) with
    | error e =>
      rw [hr] at hrem
      exact absurd hrem (by simp)
    | ok val =>
      obtain ⟨res, u⟩ := val
      rw [hr] at hrem
      dsimp only at hrem
      injection hrem with hrem
      obtain rfl : t1 = { t with root := res } := (congrArg Prod.fst hrem).symm
      rw [hroot, memOpt_some] at hmem
      obtain ⟨hwf0, hreg0⟩ := WFT_some t n0 hroot hw
      constructor
      · rw [treeContains_eq]
        show (containsPoint t.region (px, py) && memOpt (px, py) res) = false
        rw [(nodeRemove_shape _ _ _ _ _ hr).2.2, Bool.and_false]
      · intro qx qy hne hq
        rw [treeContains_eq] at hq
        simp only [Bool.and_eq_true] at hq
        obtain ⟨hcq, hmq⟩ := hq
        rw [hroot, memOpt_some] at hmq
        have hmono := nodeRemove_mem_mono (treeFuel t) n0 px py qx qy res u hwf0
          (by rw [hreg0]; exact hcp) (by rw [hreg0]; exact hcq) hne hmq hr
        rw [treeContains_eq]
        show (containsPoint t.region (qx, qy) && memOpt (qx, qy) res) = true
        rw [hcq, hmono, Bool.and_self]

theorem c6_remove_correct_witness :
    treeContains
      ⟨some (.mk ⟨0, 0, 2, 2⟩ false
        (some (.mk ⟨1, 1, 2, 2⟩ true none none none none)) none none none),
        ⟨0, 0, 2, 2⟩⟩ (0, 0) = false ∧
    treeContains
      ⟨some (.mk ⟨0, 0, 2, 2⟩ false
        (some (.mk ⟨1, 1, 2, 2⟩ true none none none none)) none none none),
        ⟨0, 0, 2, 2⟩⟩ (1, 1) = true := by
  have h := c6_remove_correct ⟨0, 0, 2, 2⟩ [.add (0, 0), .add (1, 1)]
    ⟨some (.mk ⟨0, 0, 2, 2⟩ false
      (some (.mk ⟨1, 1, 2, 2⟩ true none none none none)) none
      (some (.mk ⟨0, 0, 1, 1⟩ true none none none none)) none), ⟨0, 0, 2, 2⟩⟩
    ⟨some (.mk ⟨0, 0, 2, 2⟩ false
      (some (.mk ⟨1, 1, 2, 2⟩ true none none none none)) none none none),
      ⟨0, 0, 2, 2⟩⟩
    0 0 true rfl (by decide) rfl
  exact ⟨h.1, h.2 1 1 (by decide) (by decide)⟩

end QuadRegion

namespace QuadRegion

/-! ## The add-only invariant: accessors, base cases, collapse step -/

theorem Inv_hreg (A : Int × Int → Prop) (n : QuadNode) (h : Inv A n) :
    ∀ q c, n.child q = some c → c.region = subregionR n.region q := by
  cases h with
  | intro n hreg hfc hfa hcf hpf hch => exact hreg

theorem Inv_hfc (A : Int × Int → Prop) (n : QuadNode) (h : Inv A n) :
    n.full = true → n.childrenNull = true := by
  cases h with
  | intro n hreg hfc hfa hcf hpf hch => exact hfc

theorem Inv_hfa (A : Int × Int → Prop) (n : QuadNode) (h : Inv A n) :
    n.full = true → ∀ px py, containsPoint n.region (px, py) = true → A (px, py) := by
  cases h with
  | intro n hreg hfc hfa hcf hpf hch => exact hfa

theorem Inv_hcf (A : Int × Int → Prop) (n : QuadNode) (h : Inv A n) :
    n.childrenFull = false := by
  cases h with
  | intro n hreg hfc hfa hcf hpf hch => exact hcf

theorem Inv_hpf (A : Int × Int → Prop) (n : QuadNode) (h : Inv A n) :
    n.isPoint = true → n.full = true := by
  cases h with
  | intro n hreg hfc hfa hcf hpf hch => exact hpf

theorem Inv_hch (A : Int × Int → Prop) (n : QuadNode) (h : Inv A n) :
    ∀ q c, n.child q = some c → Inv A c := by
  cases h with
  | intro n hreg hfc hfa hcf hpf hch => exact hch

theorem Inv_mono (A B : Int × Int → Prop) (n : QuadNode)
    (hAB : ∀ z, A z → B z) (h : Inv A n) : Inv B n := by
  induction h with
  | intro n hreg hfc hfa hcf hpf hch ih =>
    exact Inv.intro n hreg hfc (fun hf px py hc => hAB _ (hfa hf px py hc)) hcf hpf ih

theorem full_make (r : Region) (f : Bool) : (QuadNode.make r f).full = f := rfl

theorem region_make (r : Region) (f : Bool) : (QuadNode.make r f).region = r := rfl

theorem childrenFull_no_children (n : QuadNode)
    (h : ∀ q, n.child q = none) : n.childrenFull = false := by
  unfold QuadNode.childrenFull
  rw [h .NE]
  rfl

theorem Inv_make_not_point (A : Int × Int → Prop) (r : Region)
    (h : (QuadNode.make r false).isPoint = false) : Inv A (QuadNode.make r false) := by
  refine Inv.intro _ ?_ ?_ ?_ ?_ ?_ ?_
  · intro q c hc
    rw [child_make] at hc
    exact absurd hc (by simp)
  · intro hf
    rw [full_make] at hf
    exact absurd hf (by simp)
  · intro hf
    rw [full_make] at hf
    exact absurd hf (by simp)
  · exact childrenFull_no_children _ (child_make r false)
  · intro hpt
    rw [h] at hpt
    exact absurd hpt (by simp)
  · intro q c hc
    rw [child_make] at hc
    exact absurd hc (by simp)

/-- The full point child created by `add` satisfies the invariant for the
enlarged point set, because its single point is the added point. -/
theorem Inv_point_child (A : Int × Int → Prop) (s : Region) (px py : Int)
    (hpt : (QuadNode.make s false).isPoint = true)
    (hin : containsPoint s (px, py) = true) :
    Inv (fun z => A z ∨ z = (px, py)) ((QuadNode.make s false).setFull true) := by
  have hch : ∀ q, ((QuadNode.make s false).setFull true).child q = none := by
    intro q
    rw [child_setFull, child_make]
  refine Inv.intro _ ?_ ?_ ?_ ?_ ?_ ?_
  · intro q c hc
    rw [hch q] at hc
    exact absurd hc (by simp)
  · intro _
    rw [childrenNull_eq]
    intro q
    exact hch q
  · intro _ zx zy hz
    right
    rw [region_setFull, region_make] at hz
    obtain ⟨hx, hy⟩ := (isPoint_iff _).mp hpt
    rw [region_make] at hx hy
    obtain ⟨h1, h2⟩ := point_region_unique s zx zy px py hx hy hz hin
    rw [h1, h2]
  · exact childrenFull_no_children _ hch
  · intro _
    rw [full_setFull]
  · intro q c hc
    rw [hch q] at hc
    exact absurd hc (by simp)

/-- Pushing the invariant through the collapse check at the end of `add`. -/
theorem addFinish_Inv (A : Int × Int → Prop) (X : QuadNode)
    (hXfull : X.full = false)
    (hXpt : X.isPoint = false)
    (hreg : ∀ q c, X.child q = some c → c.region = subregionR X.region q)
    (hch : ∀ q c, X.child q = some c → Inv A c) :
    Inv A (addFinish X).1 := by
  unfold addFinish
  split
  · rename_i hcf
    refine Inv.intro _ ?_ ?_ ?_ ?_ ?_ ?_
    · intro q c hc
      rw [child_clearChildren] at hc
      exact absurd hc (by simp)
    · intro _
      rw [childrenNull_eq]
      intro q
      exact child_clearChildren _ q
    · intro _ zx zy hz
      rw [region_clearChildren, region_setFull] at hz
      have hq := mem_subregion_quadrant X.region zx zy hz
      have hfq := (childrenFull_eq X).mp hcf (quadrantR X.region (zx, zy))
      cases hcx : X.child (quadrantR X.region (zx, zy)) with
      | none =>
        rw [hcx] at hfq
        exact absurd hfq (by simp [fullChild])
      | some cq =>
        rw [hcx] at hfq
        have hcreg := hreg _ _ hcx
        refine Inv_hfa A cq (hch _ _ hcx) hfq zx zy ?_
        rw [hcreg]
        exact hq
    · exact childrenFull_no_children _ (child_clearChildren _)
    · intro _
      rw [full_clearChildren, full_setFull]
    · intro q c hc
      rw [child_clearChildren] at hc
      exact absurd hc (by simp)
  · rename_i hcf
    rw [Bool.not_eq_true] at hcf
    refine Inv.intro _ hreg ?_ ?_ hcf ?_ hch
    · intro hf
      rw [hXfull] at hf
      exact absurd hf (by simp)
    · intro hf
      rw [hXfull] at hf
      exact absurd hf (by simp)
    · intro hpt
      rw [hXpt] at hpt
      exact absurd hpt (by simp)

end QuadRegion

namespace QuadRegion

/-- Adding a not-yet-present in-region point preserves the add-only
invariant, for the point set enlarged by that point. -/
theorem nodeAdd_Inv (fuel : Nat) (n : QuadNode) (px py : Int) (A : Int × Int → Prop)
    (n1 : QuadNode) (b : Bool)
    (hinv : Inv A n)
    (hp : containsPoint n.region (px, py) = true)
    (hnA : ¬ A (px, py))
    (h : nodeAdd fuel n (px, py) = .ok (n1, b)) :
    Inv (fun z => A z ∨ z = ((px, py) : Int × Int)) n1 := by
  induction fuel generalizing n n1 b with
  | zero => exact absurd h (by unfold nodeAdd; simp)
  | succ fuel ih =>
    have hnf : n.full = false := by
      cases hfn : n.full
      · rfl
      · exact absurd (Inv_hfa A n hinv hfn px py hp) hnA
    have hnp : n.isPoint = false := by
      cases hip : n.isPoint
      · rfl
      · rw [Inv_hpf A n hinv hip] at hnf
        exact absurd hnf (by simp)
    have hqdef : n.quadrant (px, py) = quadrantR n.region (px, py) := rfl
    have hsubp : containsPoint (subregionR n.region (n.quadrant (px, py))) (px, py) = true := by
      rw [hqdef]
      exact mem_subregion_quadrant n.region px py hp
    rw [nodeAdd_succ] at h
    cases hc : n.child (n.quadrant (px, py)) with
    | none =>
      rw [hc] at h
      dsimp only at h
      split at h
      · rename_i hptc
        injection h with h
        obtain rfl : n1 = (addFinish (n.setChild (n.quadrant (px, py))
            (some ((QuadNode.make (n.subregion (n.quadrant (px, py))) false).setFull true)))).1 :=
          (congrArg Prod.fst h).symm
        refine addFinish_Inv _ _ ?_ ?_ ?_ ?_
        · rw [full_setChild]
          exact hnf
        · rw [isPoint_region_eq n _ (region_setChild _ _ _)]
          exact hnp
        · intro q' c hc'
          rw [region_setChild]
          by_cases hq' : q' = n.quadrant (px, py)
          · subst hq'
            rw [child_setChild_self] at hc'
            injection hc' with hc'
            rw [← hc', region_setFull, region_make]
            rfl
          · rw [child_setChild_ne _ _ _ _ hq'] at hc'
            exact Inv_hreg A n hinv q' c hc'
        · intro q' c hc'
          by_cases hq' : q' = n.quadrant (px, py)
          · subst hq'
            rw [child_setChild_self] at hc'
            injection hc' with hc'
            rw [← hc']
            exact Inv_point_child A (n.subregion (n.quadrant (px, py))) px py hptc hsubp
          · rw [child_setChild_ne _ _ _ _ hq'] at hc'
            exact Inv_mono A _ _ (fun z hz => Or.inl hz) (Inv_hch A n hinv q' c hc')
      · rename_i hptc
        cases hr : nodeAdd fuel (QuadNode.make (n.subregion (n.quadrant (px, py))) false)
            (px, py) with
        | error e =>
          rw [hr] at h
          exact absurd h (by simp)
        | ok val =>
          obtain ⟨c1, b0⟩ := val
          rw [hr] at h
          dsimp only at h
          injection h with h
          obtain rfl : n1 = (addFinish (n.setChild (n.quadrant (px, py)) (some c1))).1 :=
            (congrArg Prod.fst h).symm
          have hc0pt : (QuadNode.make (n.subregion (n.quadrant (px, py))) false).isPoint
              = false := by
            rw [Bool.not_eq_true] at hptc
            exact hptc
          have hinv0 : Inv A (QuadNode.make (n.subregion (n.quadrant (px, py))) false) :=
            Inv_make_not_point A _ hc0pt
          have hpc : containsPoint
              (QuadNode.make (n.subregion (n.quadrant (px, py))) false).region (px, py)
              = true := by
            rw [region_make]
            exact hsubp
          have ihc := ih _ _ _ hinv0 hpc hr
          obtain ⟨hb0, hreg0, _, _, _⟩ := nodeAdd_shape _ _ _ _ _ hr
          refine addFinish_Inv _ _ ?_ ?_ ?_ ?_
          · rw [full_setChild]
            exact hnf
          · rw [isPoint_region_eq n _ (region_setChild _ _ _)]
            exact hnp
          · intro q' c hc'
            rw [region_setChild]
            by_cases hq' : q' = n.quadrant (px, py)
            · subst hq'
              rw [child_setChild_self] at hc'
              injection hc' with hc'
              rw [← hc', hreg0, region_make]
              rfl
            · rw [child_setChild_ne _ _ _ _ hq'] at hc'
              exact Inv_hreg A n hinv q' c hc'
          · intro q' c hc'
            by_cases hq' : q' = n.quadrant (px, py)
            · subst hq'
              rw [child_setChild_self] at hc'
              injection hc' with hc'
              rw [← hc']
              exact ihc
            · rw [child_setChild_ne _ _ _ _ hq'] at hc'
              exact Inv_mono A _ _ (fun z hz => Or.inl hz) (Inv_hch A n hinv q' c hc')
    | some c =>
      rw [hc] at h
      dsimp only at h
      cases hr : nodeAdd fuel c (px, py) with
      | error e =>
        rw [hr] at h
        exact absurd h (by simp)
      | ok val =>
        obtain ⟨c1, b0⟩ := val
        rw [hr] at h
        dsimp only at h
        obtain ⟨hb0, hreg0, _, _, _⟩ := nodeAdd_shape _ _ _ _ _ hr
        subst hb0
        rw [if_pos rfl] at h
        injection h with h
        obtain rfl : n1 = (addFinish (n.setChild (n.quadrant (px, py)) (some c1))).1 :=
          (congrArg Prod.fst h).symm
        have hcreg := Inv_hreg A n hinv _ _ hc
        have hpc : containsPoint c.region (px, py) = true := by
          rw [hcreg]
          exact hsubp
        have ihc := ih _ _ _ (Inv_hch A n hinv _ _ hc) hpc hr
        refine addFinish_Inv _ _ ?_ ?_ ?_ ?_
        · rw [full_setChild]
          exact hnf
        · rw [isPoint_region_eq n _ (region_setChild _ _ _)]
          exact hnp
        · intro q' c' hc'
          rw [region_setChild]
          by_cases hq' : q' = n.quadrant (px, py)
          · subst hq'
            rw [child_setChild_self] at hc'
            injection hc' with hc'
            rw [← hc', hreg0]
            exact hcreg
          · rw [child_setChild_ne _ _ _ _ hq'] at hc'
            exact Inv_hreg A n hinv q' c' hc'
        · intro q' c' hc'
          by_cases hq' : q' = n.quadrant (px, py)
          · subst hq'
            rw [child_setChild_self] at hc'
            injection hc' with hc'
            rw [← hc']
            exact ihc
          · rw [child_setChild_ne _ _ _ _ hq'] at hc'
            exact Inv_mono A _ _ (fun z hz => Or.inl hz) (Inv_hch A n hinv q' c' hc')

end QuadRegion

namespace QuadRegion

/-! ## Power-of-two regions and the full-root argument for C7 -/

theorem sidesPow_subregion (r : Region) (k : Nat) (h : sidesPow r (k + 1)) (q : Quad) :
    sidesPow (subregionR r q) k := by
  obtain ⟨hx, hy⟩ := h
  have h2 : (2 : Int) ^ (k + 1) = 2 ^ k + 2 ^ k := by ring
  rw [h2] at hx hy
  cases q <;> simp only [sidesPow, subregionR, originX, originY] <;> constructor <;> omega

theorem sidesPow_pos (r : Region) (k : Nat) (h : sidesPow r k) :
    r.x_min < r.x_max ∧ r.y_min < r.y_max := by
  obtain ⟨hx, hy⟩ := h
  have hp : (0 : Int) < 2 ^ k := pow_pos (by norm_num) k
  omega

/-- A node holding the invariant over a power-of-two square region, in
which every region point is a member, is a collapsed full node. -/
theorem Inv_full_of_memAll (k : Nat) :
    ∀ (n : QuadNode) (A : Int × Int → Prop),
      Inv A n → sidesPow n.region k →
      (∀ px py, containsPoint n.region (px, py) = true → memNode (px, py) n = true) →
      n.full = true ∧ n.childrenNull = true := by
  induction k with
  | zero =>
    intro n A hinv hsp _
    have hpt : n.isPoint = true := by
      rw [isPoint_iff]
      obtain ⟨hx, hy⟩ := hsp
      rw [pow_zero] at hx hy
      constructor <;> omega
    have hf := Inv_hpf A n hinv hpt
    exact ⟨hf, Inv_hfc A n hinv hf⟩
  | succ k ih =>
    intro n A hinv hsp hmem
    by_cases hf : n.full = true
    · exact ⟨hf, Inv_hfc A n hinv hf⟩
    · exfalso
      rw [Bool.not_eq_true] at hf
      obtain ⟨hlt1, hlt2⟩ := sidesPow_pos _ _ hsp
      have hchfull : ∀ q : Quad, fullChild (n.child q) = true := by
        intro q
        have hspq := sidesPow_subregion n.region k hsp q
        obtain ⟨hql1, hql2⟩ := sidesPow_pos _ _ hspq
        have hcorner : containsPoint (subregionR n.region q)
            ((subregionR n.region q).x_min, (subregionR n.region q).y_min) = true := by
          rw [containsPoint_iff]
          exact ⟨le_refl _, hql1, le_refl _, hql2⟩
        obtain ⟨hcr, hcq⟩ := quadrant_eq_of_mem_subregion n.region _ _ q
          (le_of_lt hlt1) (le_of_lt hlt2) hcorner
        have hmc := hmem _ _ hcr
        rw [memNode_eq, hf, Bool.false_or, hcq] at hmc
        cases hcx : n.child q with
        | none =>
          rw [hcx] at hmc
          exact absurd hmc (by simp [memOpt])
        | some cq =>
          rw [hcx, memOpt_some] at hmc
          have hcreg := Inv_hreg A n hinv _ _ hcx
          have hspc : sidesPow cq.region k := by
            rw [hcreg]
            exact hspq
          have hmemc : ∀ px py, containsPoint cq.region (px, py) = true →
              memNode (px, py) cq = true := by
            intro px py hcp
            rw [hcreg] at hcp
            obtain ⟨hzr, hzq⟩ := quadrant_eq_of_mem_subregion n.region px py q
              (le_of_lt hlt1) (le_of_lt hlt2) hcp
            have hm := hmem px py hzr
            rw [memNode_eq, hf, Bool.false_or, hzq, hcx, memOpt_some] at hm
            exact hm
          have hfull := ih cq A (Inv_hch A n hinv _ _ hcx) hspc hmemc
          exact hfull.1
      have h1 := (childrenFull_eq n).mpr hchfull
      rw [Inv_hcf A n hinv] at h1
      exact absurd h1 (by simp)

theorem treeAdd_region_eq (t : QuadTree) (pt : Int × Int) (t1 : QuadTree) (b : Bool)
    (h : treeAdd t pt = .ok (t1, b)) : t1.region = t.region := by
  unfold treeAdd at h
  split at h
  · injection h with h
    obtain rfl : t = t1 := congrArg Prod.fst h
    rfl
  · dsimp only at h
    cases hr : nodeAdd (treeFuel t) (t.root.getD (QuadNode.make t.region false)) pt with
    | error e =>
      rw [hr] at h
      exact absurd h (by simp)
    | ok val =>
      obtain ⟨r1, b0⟩ := val
      rw [hr] at h
      dsimp only at h
      injection h with h
      obtain rfl : t1 = { t with root := some r1 } := (congrArg Prod.fst h).symm
      rfl

theorem runAdds_Inv (ps : List (Int × Int)) :
    ∀ (t t2 : QuadTree) (n : QuadNode) (A : Int × Int → Prop),
      t.root = some n → n.region = t.region → Inv A n →
      ps.Nodup → (∀ p ∈ ps, containsPoint t.region p = true) →
      (∀ p ∈ ps, ¬ A p) →
      runAdds t ps = .ok t2 →
      ∃ n2, t2.root = some n2 ∧ n2.region = t.region ∧ t2.region = t.region ∧
        Inv (fun z => A z ∨ z ∈ ps) n2 := by
  induction ps with
  | nil =>
    intro t t2 n A hroot hreg hinv _ _ _ h
    unfold runAdds at h
    injection h with h
    subst h
    exact ⟨n, hroot, hreg, rfl, Inv_mono A _ _ (fun z hz => Or.inl hz) hinv⟩
  | cons p ps ih =>
    intro t t2 n A hroot hreg hinv hnd hin hnA h
    obtain ⟨px, py⟩ := p
    unfold runAdds at h
    cases ha : treeAdd t (px, py) with
    | error e =>
      rw [ha] at h
      exact absurd h (by simp)
    | ok val =>
      obtain ⟨t1, b⟩ := val
      rw [ha] at h
      dsimp only at h
      have hinP : containsPoint t.region (px, py) = true := hin _ (List.mem_cons_self _ _)
      unfold treeAdd at ha
      rw [if_neg (by simp [hinP])] at ha
      dsimp only at ha
      rw [hroot, Option.getD_some] at ha
      cases hr : nodeAdd (treeFuel t) n (px, py) with
      | error e =>
        rw [hr] at ha
        exact absurd ha (by simp)
      | ok val2 =>
        obtain ⟨r1, b0⟩ := val2
        rw [hr] at ha
        dsimp only at ha
        injection ha with ha
        obtain rfl : t1 = { t with root := some r1 } := (congrArg Prod.fst ha).symm
        have hinv1 : Inv (fun z => A z ∨ z = ((px, py) : Int × Int)) r1 :=
          nodeAdd_Inv _ _ _ _ _ _ _ hinv (by rw [hreg]; exact hinP)
            (hnA _ (List.mem_cons_self _ _)) hr
        have hreg1 : r1.region = t.region := by
          rw [(nodeAdd_shape _ _ _ _ _ hr).2.1, hreg]
        have hnN : ∀ q ∈ ps, ¬(A q ∨ q = ((px, py) : Int × Int)) := by
          intro q hq
          rintro (hAq | hqp)
          · exact hnA q (List.mem_cons_of_mem _ hq) hAq
          · rw [hqp] at hq
            exact (List.nodup_cons.mp hnd).1 hq
        obtain ⟨n2, h1, h2, h3, h4⟩ := ih { t with root := some r1 } t2 r1 _
          rfl hreg1 hinv1 (List.Nodup.of_cons hnd)
          (fun q hq => hin q (List.mem_cons_of_mem _ hq)) hnN h
        refine ⟨n2, h1, h2, h3, Inv_mono _ _ _ ?_ h4⟩
        intro z hz
        rcases hz with (hA | hzp) | hzin
        · exact Or.inl hA
        · exact Or.inr (by rw [hzp]; exact List.mem_cons_self _ _)
        · exact Or.inr (List.mem_cons_of_mem _ hzin)

theorem runAdds_mem_all (ps : List (Int × Int)) :
    ∀ (t t2 : QuadTree), runAdds t ps = .ok t2 →
      (∀ p ∈ ps, containsPoint t.region p = true) →
      ∀ p ∈ ps, treeContains t2 p = true := by
  induction ps with
  | nil =>
    intro t t2 _ _ p hp
    exact absurd hp (by simp)
  | cons q ps ih =>
    intro t t2 h hin p hp
    unfold runAdds at h
    cases ha : treeAdd t q with
    | error e =>
      rw [ha] at h
      exact absurd h (by simp)
    | ok val =>
      obtain ⟨t1, b⟩ := val
      rw [ha] at h
      dsimp only at h
      rcases List.mem_cons.mp hp with rfl | hpmem
      · exact runAdds_mem_mono ps t1 t2 p h
          (treeAdd_mem_self t p t1 b (hin p (List.mem_cons_self _ _)) ha)
      · refine ih t1 t2 h ?_ p hpmem
        intro z hz
        rw [treeAdd_region_eq t q t1 b ha]
        exact hin z (List.mem_cons_of_mem _ hz)

end QuadRegion

namespace QuadRegion

/-- C7 amended: when the canonical region is a square whose side is a power
of two at least `2`, inserting every one of its integer points, each exactly
once, in any order, yields (whenever the run terminates) a root node with
`full == true` and no children.  (For canonical regions of other side
lengths, such as side `3` or the side-`1` degenerate square, this fails.) -/
theorem c7_insert_all_pow2_side_root_full (r : Region) (k : Nat)
    (ps : List (Int × Int)) (t2 : QuadTree)
    (hk : 1 ≤ k)
    (hsp : sidesPow (QuadTree.make r).region k)
    (hnd : ps.Nodup)
    (hcov : ∀ p : Int × Int, p ∈ ps ↔ containsPoint (QuadTree.make r).region p = true)
    (hrun : runAdds (QuadTree.make r) ps = .ok t2) :
    ∃ n, t2.root = some n ∧ n.full = true ∧ n.childrenNull = true := by
  have hpos := sidesPow_pos _ _ hsp
  have h2k : (2 : Int) ≤ 2 ^ k := by
    calc (2 : Int) = 2 ^ 1 := by norm_num
    _ ≤ 2 ^ k := pow_le_pow_right₀ (by norm_num) hk
  have hmem_t2 : ∀ p ∈ ps, treeContains t2 p = true :=
    runAdds_mem_all ps _ _ hrun (fun p hp => (hcov p).mp hp)
  cases ps with
  | nil =>
    exfalso
    have hcorner : containsPoint (QuadTree.make r).region
        ((QuadTree.make r).region.x_min, (QuadTree.make r).region.y_min) = true := by
      rw [containsPoint_iff]
      exact ⟨le_refl _, hpos.1, le_refl _, hpos.2⟩
    exact absurd ((hcov _).mpr hcorner) (by simp)
  | cons p0 ps' =>
    obtain ⟨px, py⟩ := p0
    unfold runAdds at hrun
    cases ha : treeAdd (QuadTree.make r) (px, py) with
    | error e =>
      rw [ha] at hrun
      exact absurd hrun (by simp)
    | ok val =>
      obtain ⟨t1, b⟩ := val
      rw [ha] at hrun
      dsimp only at hrun
      have hin0 : containsPoint (QuadTree.make r).region (px, py) = true :=
        (hcov _).mp (List.mem_cons_self _ _)
      unfold treeAdd at ha
      rw [if_neg (by simp [hin0])] at ha
      dsimp only at ha
      have hrootmk : (QuadTree.make r).root = none := rfl
      rw [hrootmk, Option.getD_none] at ha
      cases hr : nodeAdd (treeFuel (QuadTree.make r))
          (QuadNode.make (QuadTree.make r).region false) (px, py) with
      | error e =>
        rw [hr] at ha
        exact absurd ha (by simp)
      | ok val2 =>
        obtain ⟨r1, b0⟩ := val2
        rw [hr] at ha
        dsimp only at ha
        injection ha with ha
        obtain rfl : t1 = { QuadTree.make r with root := some r1 } :=
          (congrArg Prod.fst ha).symm
        have hstartpt : (QuadNode.make (QuadTree.make r).region false).isPoint = false := by
          cases hipt : (QuadNode.make (QuadTree.make r).region false).isPoint
          · rfl
          · exfalso
            obtain ⟨hx, hy⟩ := (isPoint_iff _).mp hipt
            rw [region_make] at hx hy
            obtain ⟨hsx, hsy⟩ := hsp
            omega
        have hinv0 : Inv (fun _ => False) (QuadNode.make (QuadTree.make r).region false) :=
          Inv_make_not_point _ _ hstartpt
        have hinv1 := nodeAdd_Inv _ _ _ _ _ _ _ hinv0
          (by rw [region_make]; exact hin0) (by simp) hr
        have hreg1 : r1.region = (QuadTree.make r).region := by
          rw [(nodeAdd_shape _ _ _ _ _ hr).2.1, region_make]
        have hnN : ∀ q ∈ ps', ¬((fun _ => False) q ∨ q = ((px, py) : Int × Int)) := by
          intro q hq
          rintro (hF | hqp)
          · exact hF
          · rw [hqp] at hq
            exact (List.nodup_cons.mp hnd).1 hq
        obtain ⟨n2, h1, h2, h3, h4⟩ := runAdds_Inv ps'
          { QuadTree.make r with root := some r1 } t2 r1 _
          rfl hreg1 hinv1 (List.Nodup.of_cons hnd)
          (fun q hq => (hcov q).mp (List.mem_cons_of_mem _ hq)) hnN hrun
        have hmemall : ∀ zx zy, containsPoint n2.region (zx, zy) = true →
            memNode (zx, zy) n2 = true := by
          intro zx zy hz
          have hz' : containsPoint (QuadTree.make r).region (zx, zy) = true := by
            rw [h2] at hz
            exact hz
          have hzin : ((zx, zy) : Int × Int) ∈ (px, py) :: ps' := (hcov _).mpr hz'
          have htc := hmem_t2 _ hzin
          rw [treeContains_eq, h1] at htc
          simp only [Bool.and_eq_true] at htc
          rw [memOpt_some] at htc
          exact htc.2
        have hfin := Inv_full_of_memAll k n2 _ h4 (by rw [h2]; exact hsp) hmemall
        exact ⟨n2, h1, hfin.1, hfin.2⟩

theorem c7_insert_all_pow2_side_root_full_witness :
    (1 ≤ 1 ∧ sidesPow (QuadTree.make ⟨0, 0, 2, 2⟩).region 1 ∧
      ([((0 : Int), (0 : Int)), (0, 1), (1, 0), (1, 1)] : List (Int × Int)).Nodup) ∧
    ∃ n, (⟨some (.mk ⟨0, 0, 2, 2⟩ true none none none none), ⟨0, 0, 2, 2⟩⟩
        : QuadTree).root = some n ∧ n.full = true ∧ n.childrenNull = true := by
  refine ⟨⟨by norm_num, by constructor <;> decide, by decide⟩, ?_⟩
  refine c7_insert_all_pow2_side_root_full ⟨0, 0, 2, 2⟩ 1
    [(0, 0), (0, 1), (1, 0), (1, 1)] _ (by norm_num) (by constructor <;> decide)
    (by decide) ?_ rfl
  intro p
  obtain ⟨px, py⟩ := p
  rw [show (QuadTree.make ⟨0, 0, 2, 2⟩).region = (⟨0, 0, 2, 2⟩ : Region) from rfl,
    containsPoint_iff]
  dsimp only
  simp only [List.mem_cons, List.not_mem_nil, or_false, Prod.mk.injEq]
  constructor
  · rintro (⟨h1, h2⟩ | ⟨h1, h2⟩ | ⟨h1, h2⟩ | ⟨h1, h2⟩) <;> subst h1 <;> subst h2 <;>
      exact ⟨by norm_num, by norm_num, by norm_num, by norm_num⟩
  · rintro ⟨h1, h2, h3, h4⟩
    omega

end QuadRegion
